import Mathlib

/-!
Verification of the rclaude session orchestrator against its specification.

The definitions below are shallow embeddings of the Python sources under
src/rclaude.  Pure helpers become Lean functions on String and List Char;
file-system reads (the allow-list, the session-state snapshot) become explicit
parameters or Option values; the nondeterministic pattern-generator model call
is represented by the list of its textual outputs.  Each claim of the
specification is then stated and settled as a theorem about these definitions.
-/

namespace RClaude

/-! ## Python string primitives

`pyIsSpace` is the whitespace class used by Python's `str.split()` and
`str.strip()` on the ASCII text the source handles; `pyIsWord` is the `\w`
class of the `re` module restricted to ASCII. -/

def pyIsSpace (c : Char) : Bool :=
  c = ' ' || c = '\t' || c = '\n' || c = '\r' || c = '\x0b' || c = '\x0c'

def pyIsWord (c : Char) : Bool :=
  c.isAlphanum || c = '_'

/-- Helper for `pySplitWs`: accumulate the current word (reversed) while
scanning. -/
def pySplitWsAux : List Char → List Char → List (List Char)
  | [], cur => if cur.isEmpty then [] else [cur.reverse]
  | c :: rest, cur =>
    if pyIsSpace c then
      if cur.isEmpty then pySplitWsAux rest [] else cur.reverse :: pySplitWsAux rest []
    else
      pySplitWsAux rest (c :: cur)

/-- Python `str.split()` with no argument: split on whitespace runs,
discarding empty pieces. -/
def pySplitWs (cs : List Char) : List (List Char) :=
  pySplitWsAux cs []

/-- Python `str.split('\n')`: split at each newline, keeping empty pieces. -/
def splitNl : List Char → List (List Char)
  | [] => [[]]
  | c :: rest =>
    if c = '\n' then [] :: splitNl rest
    else
      match splitNl rest with
      | [] => [[c]]
      | l :: ls => (c :: l) :: ls

/-- Python `str.rstrip(chars)`: drop trailing characters belonging to `set`. -/
def pyRstrip (set : List Char) (cs : List Char) : List Char :=
  (cs.reverse.dropWhile (· ∈ set)).reverse

/-- Python `str.rstrip()` with no argument: drop trailing whitespace. -/
def pyRstripWs (cs : List Char) : List Char :=
  (cs.reverse.dropWhile pyIsSpace).reverse

/-- Python `str.strip()` with no argument: drop leading and trailing
whitespace. -/
def pyStrip (cs : List Char) : List Char :=
  ((cs.dropWhile pyIsSpace).reverse.dropWhile pyIsSpace).reverse

/-- Python `str.endswith(suffix)`. -/
def endsWithL (suf cs : List Char) : Bool :=
  suf.isSuffixOf cs

/-! ## shlex.split

Embedding of `shlex.split` in POSIX mode with `whitespace_split=True`, the
configuration `permissions.py` uses.  The scanner is a character-at-a-time
state machine; a `none` result models the `ValueError` raised on an unclosed
quotation or a trailing escape character.  Tokens are accumulated in reverse
while scanning and reversed when flushed. -/

inductive ShlexState where
  | normal
  | single
  | double
  | escNormal
  | escDouble
deriving DecidableEq, Repr

def shlexAux : List Char → ShlexState → Option (List Char) → List (List Char) →
    Option (List (List Char))
  | [], .normal, cur, acc =>
    some (acc ++ (match cur with | some t => [t.reverse] | none => []))
  | [], _, _, _ => none
  | c :: rest, .normal, cur, acc =>
    if pyIsSpace c then
      match cur with
      | some t => shlexAux rest .normal none (acc ++ [t.reverse])
      | none => shlexAux rest .normal none acc
    else if c = '\'' then shlexAux rest .single (some (cur.getD [])) acc
    else if c = '"' then shlexAux rest .double (some (cur.getD [])) acc
    else if c = '\\' then shlexAux rest .escNormal (some (cur.getD [])) acc
    else shlexAux rest .normal (some (c :: cur.getD [])) acc
  | c :: rest, .single, cur, acc =>
    if c = '\'' then shlexAux rest .normal cur acc
    else shlexAux rest .single (some (c :: cur.getD [])) acc
  | c :: rest, .double, cur, acc =>
    if c = '"' then shlexAux rest .normal cur acc
    else if c = '\\' then shlexAux rest .escDouble cur acc
    else shlexAux rest .double (some (c :: cur.getD [])) acc
  | c :: rest, .escNormal, cur, acc =>
    shlexAux rest .normal (some (c :: cur.getD [])) acc
  | c :: rest, .escDouble, cur, acc =>
    if c = '"' || c = '\\' then shlexAux rest .double (some (c :: cur.getD [])) acc
    else shlexAux rest .double (some (c :: '\\' :: cur.getD [])) acc

/-- `shlex.split(s)`: `none` models a raised `ValueError`. -/
def shlex_split (s : String) : Option (List (List Char)) :=
  shlexAux s.toList .normal none []

/-! ## core/permissions.py -/

/-- Tools that require interactive approval in default mode
(`APPROVAL_REQUIRED_TOOLS`). -/
def approvalRequiredTools : List String :=
  ["Edit", "Write", "Bash", "NotebookEdit"]

/-- Edit tools that are auto-allowed in acceptEdits mode (`EDIT_TOOLS`). -/
def editTools : List String :=
  ["Edit", "Write", "NotebookEdit", "MultiEdit"]

/-- A tool's `input_data` dict, restricted to the string-valued fields the
permission logic reads. -/
abbrev InputData := List (String × String)

/-- Python `input_data.get(key, default)`. -/
def dictGet (input : InputData) (key dflt : String) : String :=
  match List.lookup key input with
  | some v => v
  | none => dflt

/-- The `command.split()[0] if command else ''` computation used for Bash
rules.  A nonempty all-whitespace command would raise `IndexError` in the
source; no claim exercises that corner. -/
def bashBaseCmd (command : String) : String :=
  match pySplitWs command.toList with
  | t :: _ => String.mk t
  | [] => ""

/-- `generate_permission_rule`: CC-compatible permission rule pattern. -/
def generate_permission_rule (toolName : String) (input : InputData) : String :=
  if toolName = "Bash" then
    "Bash(" ++ bashBaseCmd (dictGet input "command" "") ++ ":*)"
  else if toolName = "Edit" then
    "Edit(//" ++ dictGet input "file_path" "" ++ ")"
  else if toolName = "Write" then
    "Write(//" ++ dictGet input "file_path" "" ++ ")"
  else if toolName = "NotebookEdit" then
    "NotebookEdit(//" ++ dictGet input "notebook_path" "" ++ ")"
  else
    toolName ++ "(*)"

/-- `check_permission_rule`: does the tool call match any allow rule?  The
`rules` parameter stands for the list `load_permission_rules(cwd)` returned
from the project's `.claude/settings.local.json`. -/
def check_permission_rule (toolName : String) (input : InputData)
    (rules : List String) : Bool :=
  let generatedRule := generate_permission_rule toolName input
  if rules.contains generatedRule then true
  else if toolName = "Bash" then
    let baseCmd := bashBaseCmd (dictGet input "command" "")
    if rules.contains ("Bash(" ++ baseCmd ++ ":*)") then true
    else if rules.contains "Bash(*)" then true
    else false
  else false

/-- `PermissionChecker.should_auto_allow`: mode and rule gating for a tool
invocation.  `rules` stands for `load_permission_rules(cwd)`. -/
def should_auto_allow (toolName : String) (input : InputData) (mode : String)
    (rules : List String) : Bool :=
  if mode = "bypassPermissions" then true
  else if mode = "acceptEdits" && editTools.contains toolName then true
  else if !(approvalRequiredTools.contains toolName) then true
  else check_permission_rule toolName input rules

/-- `add_permission_rule`: idempotent append of a rule to the allow-list. -/
def add_permission_rule (rules : List String) (rule : String) : List String :=
  if rules.contains rule then rules else rules ++ [rule]

/-! ### Smart Bash rule generation -/

/-- The post-processing of the model's raw text inside
`_generate_pattern_once`: strip, then force a trailing `" *"`. -/
def _generate_pattern_once (raw : String) : String :=
  let p := String.mk (pyStrip raw.toList)
  if endsWithL " *".toList p.toList then p
  else if endsWithL "*".toList p.toList then
    String.mk (pyRstripWs p.toList.dropLast) ++ " *"
  else
    p ++ " *"

/-- The `pattern.rstrip(' *').strip()` computation shared by
`_pattern_matches_command` and `_is_pattern_too_broad`. -/
def patternStem (pattern : String) : List Char :=
  pyStrip (pyRstrip [' ', '*'] pattern.toList)

/-- Advance past the first command token equal to `p`, mirroring the
inner `while` of `_pattern_matches_command`. -/
def dropThrough (p : List Char) : List (List Char) → Option (List (List Char))
  | [] => none
  | c :: rest => if c = p then some rest else dropThrough p rest

/-- The token-subsequence scan of `_pattern_matches_command`. -/
def isTokenSubseq : List (List Char) → List (List Char) → Bool
  | [], _ => true
  | p :: ps, cmds =>
    match dropThrough p cmds with
    | none => false
    | some rest => isTokenSubseq ps rest

/-- `_pattern_matches_command`: does a permission pattern match the original
command? -/
def _pattern_matches_command (pattern command : String) : Bool :=
  if !endsWithL " *".toList pattern.toList && pattern ≠ "*"
      && !endsWithL "*".toList pattern.toList then
    false
  else
    let stem := patternStem pattern
    if stem.isEmpty then true
    else
      let toks :=
        match shlex_split (String.mk stem), shlex_split command with
        | some pt, some ct => (pt, ct)
        | _, _ => (pySplitWs stem, pySplitWs command.toList)
      if toks.2.isEmpty then false
      else isTokenSubseq toks.1 toks.2

/-- `_is_pattern_too_broad`: the pattern reduces to nothing but the
wildcard. -/
def _is_pattern_too_broad (pattern : String) : Bool :=
  (patternStem pattern).isEmpty

/-- The `base_cmd` computation of `generate_smart_bash_rule`, including its
`except (ValueError, IndexError)` fallback.  The two "unknown" corners for a
nonempty command mirror unreachable or crashing paths of the source. -/
def smartFallbackBase (command : String) : String :=
  match shlex_split command with
  | some (t :: _) => String.mk t
  | some [] => "unknown"
  | none =>
    if command = "" then "unknown"
    else
      match pySplitWs command.toList with
      | t :: _ => String.mk t
      | [] => "unknown"

/-- The retry loop of `generate_smart_bash_rule`.  Each list element is one
model call: `some raw` is the text the model produced, `none` models a raised
exception. -/
def smartRuleLoop (command fallback : String) : List (Option String) → String
  | [] => fallback
  | attempt :: rest =>
    match attempt with
    | none => smartRuleLoop command fallback rest
    | some raw =>
      let pattern := _generate_pattern_once raw
      if _pattern_matches_command pattern command then
        if _is_pattern_too_broad pattern then smartRuleLoop command fallback rest
        else "Bash(" ++ pattern ++ ")"
      else smartRuleLoop command fallback rest

/-- `generate_smart_bash_rule`: validated smart pattern or the
`Bash(basename:*)` fallback.  In the source `attempts` has length
`max_retries + 1 = 3`; the embedding is stated for any number of attempts. -/
def generate_smart_bash_rule (command : String) (attempts : List (Option String)) :
    String :=
  smartRuleLoop command ("Bash(" ++ smartFallbackBase command ++ ":*)") attempts

/-- The rule persisted by the ALLOW_ALWAYS branch of
`TelegramFrontend._handle_permission_callback`. -/
def allowAlwaysRule (toolName : String) (input : InputData)
    (attempts : List (Option String)) : String :=
  if toolName = "Bash" then
    generate_smart_bash_rule (dictGet input "command" "") attempts
  else
    generate_permission_rule toolName input

/-! ### Specification-side restatement of the auto-allow decision (claim C2) -/

/-- One allow-list rule matches a tool call, in the specification's words:
the exact generated rule, or for Bash the `Bash(basename:*)` pattern or the
wildcard `Bash(*)`. -/
def ruleMatchesSpec (toolName : String) (input : InputData) (rule : String) :
    Bool :=
  rule = generate_permission_rule toolName input ||
    ((toolName = "Bash" : Bool) &&
      (rule = "Bash(" ++ bashBaseCmd (dictGet input "command" "") ++ ":*)" ||
        rule = "Bash(*)"))

/-- The auto-allow decision exactly as the specification words it. -/
def should_auto_allow_spec (toolName : String) (input : InputData) (mode : String)
    (rules : List String) : Bool :=
  if mode = "bypassPermissions" then true
  else if mode = "acceptEdits"
      && ["Edit", "Write", "NotebookEdit", "MultiEdit"].contains toolName then true
  else if !(["Edit", "Write", "Bash", "NotebookEdit"].contains toolName) then true
  else rules.any (ruleMatchesSpec toolName input)

/-! ## core/session.py: sessions, the session manager, state persistence

The runtime-only fields (`client`, the two pendings) are modelled as `Option`
values; the live SDK handle carries no information the claims need, so it is
`Option Unit`. -/

/-- A tool-permission decision, modelling `PermissionResultAllow` /
`PermissionResultDeny` of the SDK. -/
inductive PermResult where
  | allow
  | deny (message : String)
deriving DecidableEq, Repr

/-- The `Session` dataclass, restricted to the fields the claims touch. -/
structure SessionM where
  id : String
  claude_session_id : Option String := none
  cwd : String
  permission_mode : String := "default"
  terminal_id : Option String := none
  client : Option Unit := none
  is_processing : Bool := false
  pending_question : Option Unit := none
  pending_permission : Option Unit := none
deriving DecidableEq, Repr

/-- The `SessionManager` registry: `_sessions` and `_frontend_mappings` as
association lists; an assignment shadows by consing, matching dict-lookup
semantics. -/
structure SessionManagerM where
  sessions : List (String × SessionM)
  frontend_mappings : List (String × String)
deriving DecidableEq, Repr

def emptyManager : SessionManagerM :=
  { sessions := [], frontend_mappings := [] }

/-- `SessionManager.get`. -/
def mgrGet (m : SessionManagerM) (sessionId : String) : Option SessionM :=
  List.lookup sessionId m.sessions

/-- `SessionManager.get_by_frontend_user`. -/
def getByFrontendUser (m : SessionManagerM) (frontendUserId : String) :
    Option SessionM :=
  match List.lookup frontendUserId m.frontend_mappings with
  | some sid => List.lookup sid m.sessions
  | none => none

/-- Register a session under a frontend user id, modelling the two dict
assignments shared by `get_or_create` and `load_state`. -/
def registerSession (m : SessionManagerM) (frontendUserId : String)
    (s : SessionM) : SessionManagerM :=
  { sessions := (s.id, s) :: m.sessions
    frontend_mappings := (frontendUserId, s.id) :: m.frontend_mappings }

/-- One value of the snapshot JSON object.  Every field is `Option` because
the loader reads all but `session_id` with `.get` (absent key or JSON `null`
both become `none`); a missing `session_id` raises `KeyError`. -/
structure SavedEntry where
  session_id : Option String := none
  claude_session_id : Option String := none
  terminal_id : Option String := none
  cwd : Option String := none
  is_processing : Option Bool := none
  permission_mode : Option String := none
deriving DecidableEq, Repr

/-- The snapshot value `save_state` computes for one mapped session id:
`some` exactly when the session exists and has a truthy (non-`None`,
nonempty) `claude_session_id`. -/
def save_state_entry (m : SessionManagerM) (sid : String) : Option SavedEntry :=
  match List.lookup sid m.sessions with
  | none => none
  | some s =>
    match s.claude_session_id with
    | none => none
    | some cs =>
      if cs = "" then none
      else
        some
          { session_id := some s.id
            claude_session_id := s.claude_session_id
            terminal_id := s.terminal_id
            cwd := some s.cwd
            is_processing := some s.is_processing
            permission_mode := some s.permission_mode }

/-- The entries `save_state` writes: one per frontend mapping whose session
qualifies, in mapping order. -/
def save_state_entries (m : SessionManagerM) : List (String × SavedEntry) :=
  m.frontend_mappings.filterMap
    (fun p => (save_state_entry m p.2).map (fun e => (p.1, e)))

/-- The snapshot file at `/tmp/rclaude-session-state.json`: `none` is an
absent file, `some (.error ())` contents that fail JSON parsing,
`some (.ok entries)` a parsed JSON object in key order. -/
abbrev SnapshotFile : Type := Option (Except Unit (List (String × SavedEntry)))

/-- `SessionManager.save_state`: write the file when there is state,
otherwise remove it. -/
def save_state (m : SessionManagerM) : SnapshotFile :=
  let st := save_state_entries m
  if st.isEmpty then none else some (.ok st)

/-- The session `load_state` reconstructs from one snapshot entry.
`cwd0` stands for `os.getcwd()`. -/
def mkLoadedSession (cwd0 : String) (sid : String) (e : SavedEntry) : SessionM :=
  { id := sid
    claude_session_id := e.claude_session_id
    terminal_id := e.terminal_id
    cwd := e.cwd.getD cwd0
    permission_mode := e.permission_mode.getD "default"
    client := none
    is_processing := e.is_processing.getD false
    pending_question := none
    pending_permission := none }

/-- The `for frontend_id, state in data.items()` loop of `load_state`.  A
missing `session_id` raises `KeyError`, which the surrounding `try/except`
swallows: the loop stops, keeping everything registered so far. -/
def load_state_entries_loop (cwd0 : String) (m : SessionManagerM) :
    List (String × SavedEntry) → SessionManagerM
  | [] => m
  | (fid, e) :: rest =>
    match e.session_id with
    | none => m
    | some sid => load_state_entries_loop cwd0 (registerSession m fid (mkLoadedSession cwd0 sid e)) rest

/-- `SessionManager.load_state`. -/
def load_state (cwd0 : String) (fs : SnapshotFile) (m : SessionManagerM) :
    SessionManagerM :=
  match fs with
  | none => m
  | some (.error _) => m
  | some (.ok entries) => load_state_entries_loop cwd0 m entries

/-- `SessionManager.clear_state_file` (defined in the source, never called
from the refactored server path). -/
def clear_state_file (_fs : SnapshotFile) : SnapshotFile :=
  none

/-- The state effect of `handle_prepare_reload`: disconnect every client,
then `save_state`. -/
def prepare_reload (m : SessionManagerM) (_fs : SnapshotFile) :
    SessionManagerM × SnapshotFile :=
  let m' : SessionManagerM :=
    { sessions := m.sessions.map (fun p => (p.1, { p.2 with client := none }))
      frontend_mappings := m.frontend_mappings }
  (m', save_state m')

/-- The startup sequence of `run_server` as far as the snapshot file is
concerned: `load_state()` runs and the file is left untouched
(`clear_state_file` has no caller on this path). -/
def run_server_startup (cwd0 : String) (m : SessionManagerM) (fs : SnapshotFile) :
    SessionManagerM × SnapshotFile :=
  (load_state cwd0 fs m, fs)

/-! ## server/app.py: the SSE delivery loop and teleport binding -/

/-- Events as the SSE loop distinguishes them. -/
inductive SseEvent where
  | returnToTerminal (claude_session_id : String)
  | superseded
  | plain (ty : String) (content : String)
deriving DecidableEq, Repr

/-- What `handle_stream` writes per delivery. -/
inductive SseEmission where
  | connected
  | update (ty : String) (content : String)
  | keepalive
deriving DecidableEq, Repr

/-- The `event: update` payload written for a queued event. -/
def eventToUpdate : SseEvent → SseEmission
  | .returnToTerminal sid => .update "return_to_terminal" sid
  | .superseded => .update "superseded" "Another terminal took over"
  | .plain ty content => .update ty content

/-- Events after which the loop breaks and the connection closes. -/
def isClosingEvent : SseEvent → Bool
  | .returnToTerminal _ => true
  | .superseded => true
  | .plain _ _ => false

/-- The delivery loop of `handle_stream` for one consumer: the supersession
check runs at the top of every iteration, before the queue is read.
`sessionTid` is the session's `terminal_id`, constant over the run;
keepalives on an idle queue are elided (the loop blocks there). -/
def supersededCheck (consumerTid : String) (sessionTid : Option String) : Bool :=
  match sessionTid with
  | some t => t ≠ "" && t ≠ consumerTid
  | none => false

def streamRun (consumerTid : String) (sessionTid : Option String) :
    List SseEvent → List SseEmission
  | [] =>
    if supersededCheck consumerTid sessionTid then
      [.update "superseded" "Another terminal took over"]
    else []
  | e :: rest =>
    if supersededCheck consumerTid sessionTid then
      [.update "superseded" "Another terminal took over"]
    else if isClosingEvent e then [eventToUpdate e]
    else eventToUpdate e :: streamRun consumerTid sessionTid rest

/-- The binding `handle_teleport` performs on the session:
`session.terminal_id = terminal_id`. -/
def teleportBind (s : SessionM) (terminalId : String) : SessionM :=
  { s with terminal_id := some terminalId }

/-! ## core/claude_client.py: the permission handler -/

/-- Outcome of `asyncio.wait_for(request_permission(...), timeout=10)`. -/
inductive SendOutcome where
  | ok
  | timeout
  | err
deriving DecidableEq, Repr

/-- What the handler leaves behind: its returned result, the session's
`pending_permission` slot afterwards, and whether a pending was created. -/
structure HandlerResult where
  result : PermResult
  pending_permission : Option Unit
  createdPending : Bool
deriving DecidableEq, Repr

/-- Functional model of `create_permission_handler.permission_handler`.
`autoAllow` is `checker.should_auto_allow(...)`; `send` is the outcome of the
10-second-capped UI send; `decision` is `pending.result` when the completion
event fires (`none` mirrors an unset result).  The wait on the completion
signal itself has no timeout in the source, so the `ok` branch depends only
on the eventual decision. -/
def permissionHandler (autoAllow : Bool) (send : SendOutcome)
    (decision : Option PermResult) : HandlerResult :=
  if autoAllow then
    { result := .allow, pending_permission := none, createdPending := false }
  else
    match send with
    | .timeout => { result := .allow, pending_permission := none, createdPending := true }
    | .err => { result := .allow, pending_permission := none, createdPending := true }
    | .ok =>
      match decision with
      | some r => { result := r, pending_permission := none, createdPending := true }
      | none =>
        { result := .deny "No response received", pending_permission := none
          createdPending := true }

/-! ## frontends/telegram/formatting.py: markdown to Telegram HTML

`markdown_to_telegram_html` is a pipeline of `re.sub` passes.  Each regex is
embedded as a recursive scanner with exactly the `re` module's semantics for
that pattern: left-to-right scan, advance by one character on a failed match
attempt, continue after the replaced text on success. -/

/-- `html.escape` for one character (`quote=True`: also `"` and `'`). -/
def escapeChar (c : Char) : List Char :=
  if c = '&' then "&amp;".toList
  else if c = '<' then "&lt;".toList
  else if c = '>' then "&gt;".toList
  else if c = '"' then "&quot;".toList
  else if c = '\'' then "&#x27;".toList
  else [c]

/-- `escape_html` = `html.escape`, character by character. -/
def escape_html : List Char → List Char
  | [] => []
  | c :: rest => escapeChar c ++ escape_html rest

/-- The `\x00CODE<n>\x00` / `\x00INLINE<n>\x00` placeholder strings. -/
def placeholder (tag : String) (n : Nat) : List Char :=
  '\x00' :: (tag.toList ++ (Nat.repr n).toList ++ ['\x00'])

/-- Index of the first occurrence of three consecutive backticks. -/
def findTripleIdx : List Char → Option Nat
  | '`' :: '`' :: '`' :: _ => some 0
  | _ :: rest => (findTripleIdx rest).map (· + 1)
  | [] => none

/-- The replacement `save_code_block` builds for one fenced block: the
content is `strip`ped, escaped and wrapped in `<pre><code>`. -/
def renderFenced (lang content : List Char) : List Char :=
  if lang.isEmpty then
    "<pre><code>".toList ++ escape_html (pyStrip content) ++ "</code></pre>".toList
  else
    "<pre><code class=\"language-".toList ++ lang ++ "\">".toList
      ++ escape_html (pyStrip content) ++ "</code></pre>".toList

/-- The fenced-block extraction pass:
`re.sub(r'```(\w*)\n(.*?)```', save_code_block, text, flags=re.DOTALL)`.
Returns the text with placeholders and the rendered blocks in match order. -/
def fencedAux : List Char → Nat → List Char × List (List Char)
  | [], _ => ([], [])
  | '`' :: '`' :: '`' :: rest, n =>
    let lang := rest.takeWhile pyIsWord
    match h : rest.dropWhile pyIsWord with
    | '\n' :: body =>
      match findTripleIdx body with
      | some k =>
        let r := fencedAux (body.drop (k + 3)) (n + 1)
        (placeholder "CODE" n ++ r.1, renderFenced lang (body.take k) :: r.2)
      | none =>
        let r := fencedAux ('`' :: '`' :: rest) n
        ('`' :: r.1, r.2)
    | _ =>
      let r := fencedAux ('`' :: '`' :: rest) n
      ('`' :: r.1, r.2)
  | c :: rest, n =>
    let r := fencedAux rest n
    (c :: r.1, r.2)
termination_by cs _ => cs.length
decreasing_by
  · have hsub : (rest.dropWhile pyIsWord).length ≤ rest.length :=
      (List.dropWhile_sublist (l := rest) pyIsWord).length_le
    have hlen : (rest.dropWhile pyIsWord).length = body.length + 1 := by
      rw [h]; simp
    simp only [List.length_drop, List.length_cons]
    omega
  · simp only [List.length_cons]; omega
  · simp only [List.length_cons]; omega
  · simp only [List.length_cons]; omega

/-- The inline-code extraction pass: `re.sub(r'`([^`]+)`', save_inline_code,
text)`. -/
def inlineAux : List Char → Nat → List Char × List (List Char)
  | [], _ => ([], [])
  | '`' :: rest, n =>
    let run := rest.takeWhile (· ≠ '`')
    match h : rest.dropWhile (· ≠ '`') with
    | _ :: rest2 =>
      if run.isEmpty then
        let r := inlineAux rest n
        ('`' :: r.1, r.2)
      else
        let r := inlineAux rest2 (n + 1)
        (placeholder "INLINE" n ++ r.1,
          ("<code>".toList ++ escape_html run ++ "</code>".toList) :: r.2)
    | [] =>
      let r := inlineAux rest n
      ('`' :: r.1, r.2)
  | c :: rest, n =>
    let r := inlineAux rest n
    (c :: r.1, r.2)
termination_by cs _ => cs.length
decreasing_by
  · simp only [List.length_cons]; omega
  · have hsub : (rest.dropWhile (· ≠ '`')).length ≤ rest.length :=
      (List.dropWhile_sublist (l := rest) _).length_le
    have hlen : (rest.dropWhile (· ≠ '`')).length = rest2.length + 1 := by
      rw [h]; simp
    simp only [List.length_cons]
    omega
  · simp only [List.length_cons]; omega
  · simp only [List.length_cons]; omega

/-- For the lazy pair patterns `\*\*(.+?)\*\*` and `__(.+?)__`: position of
the earliest closing pair after at least one non-newline content character.
`some j` means the content is the first `j` characters (`j ≥ 1`, none of
them a newline) and the pair sits at positions `j, j+1`. -/
def findCloseIdx (p : Char) : List Char → Option Nat
  | [] => none
  | c :: rest =>
    if c = '\n' then none
    else
      match rest with
      | q :: r :: _ =>
        if q = p && r = p then some 1 else (findCloseIdx p rest).map (· + 1)
      | _ => (findCloseIdx p rest).map (· + 1)

/-- One bold pass, `re.sub(r'\*\*(.+?)\*\*', r'<b>\1</b>', text)` for
`p = '*'` and the `__` variant for `p = '_'`. -/
def pairSub (p : Char) (tagO tagC : List Char) : List Char → List Char
  | [] => []
  | [a] => [a]
  | a :: b :: rest =>
    if a = p && b = p then
      match findCloseIdx p rest with
      | some j => tagO ++ rest.take j ++ tagC ++ pairSub p tagO tagC (rest.drop (j + 2))
      | none => a :: pairSub p tagO tagC (b :: rest)
    else a :: pairSub p tagO tagC (b :: rest)
termination_by cs => cs.length
decreasing_by
  · simp only [List.length_drop, List.length_cons]; omega
  · simp only [List.length_cons]; omega
  · simp only [List.length_cons]; omega

/-- One italic pass, `re.sub(r'(?<!\w)\*([^*]+)\*(?!\w)', r'<i>\1</i>')` for
`p = '*'` and the `_` variant.  `prev` is the character before the current
scan position in the original text (lookbehind); `none` at the start. -/
def italicSub (p : Char) (tagO tagC : List Char) :
    Option Char → List Char → List Char
  | _, [] => []
  | prev, c :: rest =>
    if c = p && !(match prev with | some d => pyIsWord d | none => false) then
      let run := rest.takeWhile (· ≠ p)
      match h : rest.dropWhile (· ≠ p) with
      | _ :: rest2 =>
        if run.isEmpty then c :: italicSub p tagO tagC (some c) rest
        else if (match rest2 with | [] => true | d :: _ => !pyIsWord d) then
          tagO ++ run ++ tagC ++ italicSub p tagO tagC (some p) rest2
        else c :: italicSub p tagO tagC (some c) rest
      | [] => c :: italicSub p tagO tagC (some c) rest
    else c :: italicSub p tagO tagC (some c) rest
termination_by _ cs => cs.length
decreasing_by
  all_goals first
    | (simp only [List.length_cons]; omega)
    | (have hsub : (rest.dropWhile (· ≠ p)).length ≤ rest.length :=
         (List.dropWhile_sublist (l := rest) _).length_le
       have hlen : (rest.dropWhile (· ≠ p)).length = rest2.length + 1 := by
         rw [h]; simp
       simp only [List.length_cons]
       omega)

/-- Index of the first occurrence of a character. -/
def findCharIdx (p : Char) : List Char → Option Nat
  | [] => none
  | c :: rest => if c = p then some 0 else (findCharIdx p rest).map (· + 1)

/-- The link pass, `re.sub(r'\[([^\]]+)\]\(([^)]+)\)', r'<a href="\2">\1</a>')`. -/
def linkSub : List Char → List Char
  | [] => []
  | c :: rest =>
    if c = '[' then
      match findCharIdx ']' rest with
      | some i =>
        if i = 0 then c :: linkSub rest
        else
          match h : rest.drop (i + 1) with
          | '(' :: rest2 =>
            match findCharIdx ')' rest2 with
            | some j =>
              if j = 0 then c :: linkSub rest
              else
                "<a href=\"".toList ++ rest2.take j ++ "\">".toList ++ rest.take i
                  ++ "</a>".toList ++ linkSub (rest2.drop (j + 1))
            | none => c :: linkSub rest
          | _ => c :: linkSub rest
      | none => c :: linkSub rest
    else c :: linkSub rest
termination_by cs => cs.length
decreasing_by
  all_goals first
    | (simp only [List.length_cons]; omega)
    | (have hlen : (rest.drop (i + 1)).length = rest2.length + 1 := by
         rw [h]; simp
       simp only [List.length_drop, List.length_cons] at *
       omega)

/-- Python `str.replace(pat, rep)`: replace every non-overlapping occurrence,
left to right. -/
def replaceAll (pat rep : List Char) : List Char → List Char
  | [] => []
  | c :: rest =>
    if h : pat ≠ [] ∧ pat.isPrefixOf (c :: rest) then
      rep ++ replaceAll pat rep ((c :: rest).drop pat.length)
    else c :: replaceAll pat rep rest
termination_by cs => cs.length
decreasing_by
  · have hle : pat.length ≤ (c :: rest).length :=
      (List.isPrefixOf_iff_prefix.mp h.2).length_le
    have hpos : 0 < pat.length := List.length_pos.mpr h.1
    simp only [List.length_drop, List.length_cons] at *
    omega
  · simp only [List.length_cons]; omega

/-- The `for i, block in enumerate(...)` restore loops at the end of
`markdown_to_telegram_html`. -/
def restoreSaved (tag : String) (start : Nat) (saved : List (List Char))
    (text : List Char) : List Char :=
  match saved with
  | [] => text
  | b :: bs => restoreSaved tag (start + 1) bs (replaceAll (placeholder tag start) b text)

/-- `markdown_to_telegram_html` on character lists: extract fenced blocks,
extract inline code, escape the remainder, apply the bold, italic and link
substitutions, then splice the protected segments back. -/
def markdownToTelegramHtmlL (cs : List Char) : List Char :=
  if cs.isEmpty then []
  else
    let f := fencedAux cs 0
    let i := inlineAux f.1 0
    let t3 := escape_html i.1
    let t4 := pairSub '*' "<b>".toList "</b>".toList t3
    let t5 := pairSub '_' "<b>".toList "</b>".toList t4
    let t6 := italicSub '*' "<i>".toList "</i>".toList none t5
    let t7 := italicSub '_' "<i>".toList "</i>".toList none t6
    let t8 := linkSub t7
    let t9 := restoreSaved "CODE" 0 f.2 t8
    restoreSaved "INLINE" 0 i.2 t9

/-- `markdown_to_telegram_html` on strings. -/
def markdown_to_telegram_html (s : String) : String :=
  String.mk (markdownToTelegramHtmlL s.toList)

/-! ## frontends/telegram/formatting.py: split_text -/

/-- The loop of `split_text` over the lines, carrying `chunks` and
`current_chunk`. -/
def splitTextLoop (maxLength : Nat) :
    List (List Char) → List (List Char) → List Char → List (List Char)
  | [], chunks, current =>
    if current.isEmpty then chunks else chunks ++ [current]
  | line :: rest, chunks, current =>
    if current.length + line.length + 1 > maxLength then
      splitTextLoop maxLength rest
        (if current.isEmpty then chunks else chunks ++ [current]) line
    else
      splitTextLoop maxLength rest chunks
        (if current.isEmpty then line else current ++ '\n' :: line)

/-- `split_text`: split into chunks on line boundaries, respecting
`max_length` (4096 by default). -/
def split_text (text : List Char) (maxLength : Nat) : List (List Char) :=
  splitTextLoop maxLength (splitNl text) [] []

/-- Python `'\n'.join(chunks)`, the re-assembly the claim C10 speaks about. -/
def joinNl : List (List Char) → List Char
  | [] => []
  | [x] => x
  | x :: xs => x ++ '\n' :: joinNl xs

/-- Python `pat in text` on character lists (substring containment), used to
state what "the emitted output contains the code span" means. -/
def containsSub (pat : List Char) : List Char → Bool
  | [] => pat.isPrefixOf []
  | c :: rest => pat.isPrefixOf (c :: rest) || containsSub pat rest

/-- Surrounding text that is plain for the translation pipeline: no backtick
(no further code markers), no NUL (no collision with the `\x00...\x00`
placeholders) and none of the characters that trigger the bold, italic or
link substitutions. -/
abbrev plainCtx (cs : List Char) : Prop :=
  '`' ∉ cs ∧ '\x00' ∉ cs ∧ '*' ∉ cs ∧ '_' ∉ cs ∧ '[' ∉ cs

/-! # Theorems

General-purpose lemmas first, then one theorem per claim (with its witness or
counterexample where required). -/

/-! ## Association-list lookup -/

theorem lookup_cons_self {α β : Type} [BEq α] [LawfulBEq α] (k : α) (v : β)
    (l : List (α × β)) : List.lookup k ((k, v) :: l) = some v := by
  simp [List.lookup]

theorem lookup_cons_ne {α β : Type} [BEq α] [LawfulBEq α] (k k' : α) (v : β)
    (l : List (α × β)) (h : k ≠ k') :
    List.lookup k ((k', v) :: l) = List.lookup k l := by
  simp only [List.lookup]
  rw [show (k == k') = false by simpa using h]

theorem lookup_mem {α β : Type} [BEq α] [LawfulBEq α] {k : α} {v : β}
    {l : List (α × β)} (h : List.lookup k l = some v) : (k, v) ∈ l := by
  induction l with
  | nil => simp [List.lookup] at h
  | cons p rest ih =>
    obtain ⟨k', v'⟩ := p
    simp only [List.lookup] at h
    cases hbe : k == k' with
    | true =>
      rw [hbe] at h
      simp only [Option.some.injEq] at h
      have : k = k' := by simpa using hbe
      subst this; subst h
      simp
    | false =>
      rw [hbe] at h
      exact List.mem_cons_of_mem _ (ih h)

/-! ## Permission-rule lemmas -/

theorem check_eq_any (t : String) (i : InputData) (rules : List String) :
    check_permission_rule t i rules = rules.any (ruleMatchesSpec t i) := by
  rw [Bool.eq_iff_iff]
  unfold check_permission_rule ruleMatchesSpec
  by_cases hB : t = "Bash" <;>
    simp [hB, List.any_eq_true, List.contains_iff_exists_mem_beq] <;> aesop

theorem mem_add_permission_rule (rules : List String) (rule : String) :
    rule ∈ add_permission_rule rules rule := by
  unfold add_permission_rule
  by_cases h : rules.contains rule <;> simp_all

theorem too_broad_star : _is_pattern_too_broad "*" = true := by decide

/-! ## Snapshot load-loop lemmas -/

theorem loadLoop_preserves (cwd0 : String) :
    ∀ (rest : List (String × SavedEntry)) (m : SessionManagerM) (fid sid : String)
      (s : SessionM),
    List.lookup fid m.frontend_mappings = some sid →
    List.lookup sid m.sessions = some s →
    (∀ q ∈ rest, q.1 ≠ fid) →
    (∀ q ∈ rest, ∀ sid', q.2.session_id = some sid' → sid' = sid →
        mkLoadedSession cwd0 sid' q.2 = s) →
    List.lookup fid (load_state_entries_loop cwd0 m rest).frontend_mappings = some sid
      ∧ List.lookup sid (load_state_entries_loop cwd0 m rest).sessions = some s := by
  intro rest
  induction rest with
  | nil => intro m fid sid s h1 h2 _ _; exact ⟨h1, h2⟩
  | cons q rest' ih =>
    intro m fid sid s h1 h2 hterms hcoh
    obtain ⟨f, e⟩ := q
    unfold load_state_entries_loop
    cases he : e.session_id with
    | none => exact ⟨h1, h2⟩
    | some sid' =>
      have hf : f ≠ fid := hterms (f, e) (by simp)
      apply ih
      · show List.lookup fid ((f, (mkLoadedSession cwd0 sid' e).id) :: m.frontend_mappings)
            = some sid
        rw [lookup_cons_ne fid f _ _ (Ne.symm hf)]
        exact h1
      · show List.lookup sid (((mkLoadedSession cwd0 sid' e).id, mkLoadedSession cwd0 sid' e)
            :: m.sessions) = some s
        have hid : (mkLoadedSession cwd0 sid' e).id = sid' := rfl
        rw [hid]
        by_cases hss : sid = sid'
        · subst hss
          rw [lookup_cons_self]
          exact congrArg some (hcoh (f, e) (by simp) sid he rfl)
        · rw [lookup_cons_ne sid sid' _ _ hss]
          exact h2
      · intro q hq; exact hterms q (by simp [hq])
      · intro q hq sid'' h1' h2'; exact hcoh q (by simp [hq]) sid'' h1' h2'

theorem loadLoop_finds (cwd0 : String) :
    ∀ (entries : List (String × SavedEntry)) (m : SessionManagerM) (fid sid : String)
      (e : SavedEntry),
    (fid, e) ∈ entries → e.session_id = some sid →
    (entries.map Prod.fst).Nodup →
    (∀ q ∈ entries, q.2.session_id ≠ none) →
    (∀ q ∈ entries, ∀ sid', q.2.session_id = some sid' → sid' = sid →
        mkLoadedSession cwd0 sid' q.2 = mkLoadedSession cwd0 sid e) →
    List.lookup fid (load_state_entries_loop cwd0 m entries).frontend_mappings = some sid
      ∧ List.lookup sid (load_state_entries_loop cwd0 m entries).sessions
          = some (mkLoadedSession cwd0 sid e) := by
  intro entries
  induction entries with
  | nil => intro m fid sid e hmem; exact absurd hmem (by simp)
  | cons q rest ih =>
    intro m fid sid e hmem hsid hnd hall hcoh
    obtain ⟨f, e'⟩ := q
    rcases List.mem_cons.mp hmem with hhead | htail
    · have hf : fid = f := congrArg Prod.fst hhead
      have he : e = e' := congrArg Prod.snd hhead
      subst hf; subst he
      unfold load_state_entries_loop
      rw [hsid]
      have hnotin : ∀ q ∈ rest, q.1 ≠ fid := by
        intro q hq
        have : fid ∉ rest.map Prod.fst := (List.nodup_cons.mp (by simpa using hnd)).1
        intro hqf
        exact this (hqf ▸ List.mem_map_of_mem Prod.fst hq)
      apply loadLoop_preserves
      · show List.lookup fid ((fid, (mkLoadedSession cwd0 sid e).id) :: m.frontend_mappings)
            = some sid
        rw [lookup_cons_self]
        rfl
      · show List.lookup sid (((mkLoadedSession cwd0 sid e).id, mkLoadedSession cwd0 sid e)
            :: m.sessions) = some (mkLoadedSession cwd0 sid e)
        have hid : (mkLoadedSession cwd0 sid e).id = sid := rfl
        rw [hid, lookup_cons_self]
      · exact hnotin
      · intro q hq sid'' h1' h2'; exact hcoh q (by simp [hq]) sid'' h1' h2'
    · have hne : e'.session_id ≠ none := hall (f, e') (by simp)
      cases he' : e'.session_id with
      | none => exact absurd he' hne
      | some sid'' =>
        unfold load_state_entries_loop
        rw [he']
        apply ih
        · exact htail
        · exact hsid
        · exact (List.nodup_cons.mp (by simpa using hnd)).2
        · intro q hq; exact hall q (by simp [hq])
        · intro q hq s1 h1 h2; exact hcoh q (by simp [hq]) s1 h1 h2

theorem save_state_entries_mem {m : SessionManagerM} {fid : String} {e : SavedEntry}
    (hmem : (fid, e) ∈ save_state_entries m) :
    ∃ sid s, (fid, sid) ∈ m.frontend_mappings
      ∧ List.lookup sid m.sessions = some s
      ∧ ∃ cs, s.claude_session_id = some cs ∧ cs ≠ ""
      ∧ e = { session_id := some s.id, claude_session_id := s.claude_session_id,
              terminal_id := s.terminal_id, cwd := some s.cwd,
              is_processing := some s.is_processing,
              permission_mode := some s.permission_mode } := by
  unfold save_state_entries at hmem
  rw [List.mem_filterMap] at hmem
  obtain ⟨⟨f, sid⟩, hp, hsome⟩ := hmem
  cases hlk : List.lookup sid m.sessions with
  | none =>
    simp only [save_state_entry, hlk, Option.map_none'] at hsome
    exact absurd hsome (by simp)
  | some s =>
    cases hcs : s.claude_session_id with
    | none =>
      simp only [save_state_entry, hlk, hcs, Option.map_none'] at hsome
      exact absurd hsome (by simp)
    | some cs =>
      by_cases hz : cs = ""
      · simp only [save_state_entry, hlk, hcs, if_pos hz, Option.map_none'] at hsome
        exact absurd hsome (by simp)
      · simp only [save_state_entry, hlk, hcs, if_neg hz, Option.map_some',
          Option.some.injEq, Prod.mk.injEq] at hsome
        obtain ⟨hf, he⟩ := hsome
        subst hf
        exact ⟨sid, s, hp, hlk, cs, hcs, hz, by rw [← he, hcs]⟩

theorem save_state_entries_keys_sublist (m : SessionManagerM) :
    List.Sublist ((save_state_entries m).map Prod.fst)
      (m.frontend_mappings.map Prod.fst) := by
  unfold save_state_entries
  induction m.frontend_mappings with
  | nil => simp
  | cons p rest ih =>
    cases hse : save_state_entry m p.2 with
    | none => simpa [hse] using ih.cons p.1
    | some e => simpa [hse] using ih.cons₂ p.1

/-! ## Line-splitting and joining lemmas -/

theorem joinNl_cons_ne (x : List Char) (l : List (List Char)) (h : l ≠ []) :
    joinNl (x :: l) = x ++ '\n' :: joinNl l := by
  cases l with
  | nil => exact absurd rfl h
  | cons y ys => rfl

theorem joinNl_merge (xs : List (List Char)) (a b : List Char)
    (ys : List (List Char)) :
    joinNl (xs ++ (a ++ '\n' :: b) :: ys) = joinNl (xs ++ a :: b :: ys) := by
  induction xs with
  | nil =>
    cases ys with
    | nil => simp [joinNl]
    | cons y ys' =>
      rw [List.nil_append, List.nil_append,
        joinNl_cons_ne (a ++ '\n' :: b) (y :: ys') (by simp),
        joinNl_cons_ne a (b :: y :: ys') (by simp),
        joinNl_cons_ne b (y :: ys') (by simp)]
      simp
  | cons x xs' ih =>
    rw [List.cons_append, List.cons_append,
      joinNl_cons_ne x (xs' ++ (a ++ '\n' :: b) :: ys) (by simp),
      joinNl_cons_ne x (xs' ++ a :: b :: ys) (by simp), ih]

theorem splitNl_ne_nil (cs : List Char) : splitNl cs ≠ [] := by
  cases cs with
  | nil => simp [splitNl]
  | cons c rest =>
    unfold splitNl
    split
    · simp
    · split <;> simp

theorem joinNl_splitNl (cs : List Char) : joinNl (splitNl cs) = cs := by
  induction cs with
  | nil => rfl
  | cons c rest ih =>
    unfold splitNl
    by_cases h : c = '\n'
    · rw [if_pos h, joinNl_cons_ne [] (splitNl rest) (splitNl_ne_nil rest),
        List.nil_append, ih, h]
    · rw [if_neg h]
      cases hs : splitNl rest with
      | nil => exact absurd hs (splitNl_ne_nil rest)
      | cons l ls =>
        rw [hs] at ih
        cases ls with
        | nil =>
          simp only [joinNl] at ih ⊢
          rw [ih]
        | cons y ys' =>
          rw [joinNl_cons_ne (c :: l) (y :: ys') (by simp),
            List.cons_append, ← joinNl_cons_ne l (y :: ys') (by simp), ih]

theorem splitTextLoop_join (maxLen : Nat) :
    ∀ (lines chunks : List (List Char)) (current : List Char),
    current ≠ [] → (∀ l ∈ lines, l ≠ []) →
    joinNl (splitTextLoop maxLen lines chunks current)
      = joinNl (chunks ++ current :: lines) := by
  intro lines
  induction lines with
  | nil =>
    intro chunks current hc _
    simp [splitTextLoop, hc]
  | cons line rest ih =>
    intro chunks current hc hl
    have hline : line ≠ [] := hl line (by simp)
    have hrest : ∀ l ∈ rest, l ≠ [] := fun l h => hl l (by simp [h])
    have hce : current.isEmpty = false := by simpa using hc
    unfold splitTextLoop
    by_cases hover : current.length + line.length + 1 > maxLen
    · rw [if_pos hover, hce]
      simp only [Bool.false_eq_true, if_false]
      rw [ih _ line hline hrest]
      simp [List.append_assoc]
    · rw [if_neg hover, hce]
      simp only [Bool.false_eq_true, if_false]
      rw [ih _ (current ++ '\n' :: line) (by simp) hrest]
      exact joinNl_merge chunks current line rest

/-! ## Markup-translation lemmas

These track one protected segment through every pass of
`markdown_to_telegram_html`. -/

theorem takeWhile_append_stop {p : Char → Bool} :
    ∀ (xs : List Char) (y : Char) (ys : List Char), (∀ x ∈ xs, p x = true) →
    p y = false →
    (xs ++ y :: ys).takeWhile p = xs ∧ (xs ++ y :: ys).dropWhile p = y :: ys := by
  intro xs
  induction xs with
  | nil =>
    intro y ys _ hy
    simp [List.takeWhile_cons, List.dropWhile_cons, hy]
  | cons x xs' ih =>
    intro y ys hxs hy
    have hx : p x = true := hxs x (by simp)
    have := ih y ys (fun a ha => hxs a (by simp [ha])) hy
    simp [List.takeWhile_cons, List.dropWhile_cons, hx, this.1, this.2]

theorem findTripleIdx_append (rest : List Char) :
    ∀ (c : List Char), '`' ∉ c →
    findTripleIdx (c ++ '`' :: '`' :: '`' :: rest) = some c.length := by
  intro c
  induction c with
  | nil => intro _; rfl
  | cons x c' ih =>
    intro hx
    have hxne : x ≠ '`' := by intro h; exact hx (by simp [h])
    have hc' : '`' ∉ c' := fun h => hx (by simp [h])
    rw [List.cons_append]
    show findTripleIdx (x :: (c' ++ '`' :: '`' :: '`' :: rest)) = some (c'.length + 1)
    rw [findTripleIdx.eq_def]
    split
    · rename_i heq
      rw [List.cons.injEq] at heq
      exact absurd heq.1 hxne
    · rename_i hno heq
      rw [List.cons.injEq] at heq
      rw [← heq.2, ih hc']
      rfl
    · rename_i heq
      exact absurd heq (by simp)

theorem fencedAux_nil (n : Nat) : fencedAux [] n = ([], []) := by
  rw [fencedAux.eq_def]

theorem inlineAux_nil (n : Nat) : inlineAux [] n = ([], []) := by
  rw [inlineAux.eq_def]

theorem fencedAux_standalone (lang c : List Char) (n : Nat)
    (hlang : ∀ x ∈ lang, pyIsWord x = true) (hc : '`' ∉ c) :
    fencedAux ('`' :: '`' :: '`' :: (lang ++ '\n' :: (c ++ ['`', '`', '`']))) n
      = (placeholder "CODE" n, [renderFenced lang c]) := by
  have hnl : pyIsWord '\n' = false := by decide
  have htw := takeWhile_append_stop lang '\n' (c ++ ['`', '`', '`']) hlang hnl
  rw [fencedAux.eq_def]
  split
  · rename_i heq
    exact absurd heq (by simp)
  · rename_i heq
    simp only [List.cons.injEq, true_and] at heq
    subst heq
    split
    · rename_i body heq2
      rw [htw.2, List.cons.injEq] at heq2
      obtain ⟨-, hb⟩ := heq2
      subst hb
      rw [findTripleIdx_append [] c hc]
      simp only [htw.1, List.take_left' rfl,
        List.drop_eq_nil_of_le (by simp : (c ++ ['`', '`', '`']).length ≤ c.length + 3),
        fencedAux_nil]
      simp
    · rename_i hno heq2
      exact (heq2 (c ++ ['`', '`', '`']) htw.2).elim
  · rename_i hno heq
    rw [List.cons.injEq] at heq
    exact (hno (lang ++ '\n' :: (c ++ ['`', '`', '`'])) heq.1.symm heq.2.symm).elim

theorem fencedAux_no_backtick :
    ∀ cs : List Char, '`' ∉ cs → ∀ n, fencedAux cs n = (cs, []) := by
  intro cs
  induction cs with
  | nil => intro _ n; exact fencedAux_nil n
  | cons c rest ih =>
    intro h n
    have hc : c ≠ '`' := fun he => h (by simp [he])
    have hrest : '`' ∉ rest := fun hm => h (by simp [hm])
    rw [fencedAux.eq_def]
    split
    · rename_i heq
      exact absurd heq (by simp)
    · rename_i heq
      rw [List.cons.injEq] at heq
      exact absurd heq.1 hc
    · rename_i c1 rest1 hno heq
      obtain ⟨h1, h2⟩ := List.cons.injEq .. |>.mp heq
      subst h1; subst h2
      rw [ih hrest]

theorem fencedAux_tail_backtick :
    ∀ c : List Char, '`' ∉ c → ∀ n, fencedAux (c ++ ['`']) n = (c ++ ['`'], []) := by
  intro c
  induction c with
  | nil =>
    intro _ n
    rw [List.nil_append, fencedAux.eq_def]
    split
    · rename_i heq
      exact absurd heq (by simp)
    · rename_i heq
      exact absurd heq (by simp)
    · rename_i c1 rest1 hno heq
      obtain ⟨h1, h2⟩ := List.cons.injEq .. |>.mp heq
      subst h1; subst h2
      rw [fencedAux_nil]
  | cons x c' ih =>
    intro h n
    have hx : x ≠ '`' := fun he => h (by simp [he])
    have hc' : '`' ∉ c' := fun hm => h (by simp [hm])
    rw [List.cons_append, fencedAux.eq_def]
    split
    · rename_i heq
      exact absurd heq (by simp)
    · rename_i heq
      rw [List.cons.injEq] at heq
      exact absurd heq.1 hx
    · rename_i c1 rest1 hno heq
      obtain ⟨h1, h2⟩ := List.cons.injEq .. |>.mp heq
      subst h1; subst h2
      rw [ih hc']

theorem fencedAux_inline_pass (c : List Char) (hne : c ≠ []) (hc : '`' ∉ c)
    (n : Nat) :
    fencedAux ('`' :: (c ++ ['`'])) n = ('`' :: (c ++ ['`']), []) := by
  rw [fencedAux.eq_def]
  split
  · rename_i heq
    exact absurd heq (by simp)
  · rename_i heq
    rw [List.cons.injEq] at heq
    obtain ⟨-, heq2⟩ := heq
    cases c with
    | nil => exact absurd rfl hne
    | cons c0 c' =>
      rw [List.cons_append, List.cons.injEq] at heq2
      exact absurd heq2.1 (fun he => hc (by simp [he]))
  · rename_i c1 rest1 hno heq
    obtain ⟨h1, h2⟩ := List.cons.injEq .. |>.mp heq
    subst h1; subst h2
    rw [fencedAux_tail_backtick c hc]

theorem inlineAux_no_backtick :
    ∀ cs : List Char, '`' ∉ cs → ∀ n, inlineAux cs n = (cs, []) := by
  intro cs
  induction cs with
  | nil => intro _ n; exact inlineAux_nil n
  | cons c rest ih =>
    intro h n
    have hc : c ≠ '`' := fun he => h (by simp [he])
    have hrest : '`' ∉ rest := fun hm => h (by simp [hm])
    rw [inlineAux.eq_def]
    split
    · rename_i heq
      exact absurd heq (by simp)
    · rename_i heq
      rw [List.cons.injEq] at heq
      exact absurd heq.1 hc
    · rename_i c1 rest1 hno heq
      obtain ⟨h1, h2⟩ := List.cons.injEq .. |>.mp heq
      subst h1; subst h2
      rw [ih hrest]

theorem inlineAux_standalone (c : List Char) (hne : c ≠ []) (hc : '`' ∉ c)
    (n : Nat) :
    inlineAux ('`' :: (c ++ ['`'])) n
      = (placeholder "INLINE" n,
          ["<code>".toList ++ escape_html c ++ "</code>".toList]) := by
  have hstop := takeWhile_append_stop (p := fun x => decide (x ≠ '`')) c '`' []
    (fun x hx => by
      simp only [decide_eq_true_eq]
      intro he
      exact hc (he ▸ hx))
    (by simp)
  rw [inlineAux.eq_def]
  split
  · rename_i heq
    exact absurd heq (by simp)
  · rename_i rest heq
    rw [List.cons.injEq] at heq
    obtain ⟨-, hrest⟩ := heq
    subst hrest
    split
    · rename_i head rest2 hdrop
      rw [hstop.2, List.cons.injEq] at hdrop
      obtain ⟨-, hrest2⟩ := hdrop
      subst hrest2
      simp only [hstop.1]
      rw [if_neg (by simpa using hne)]
      rw [inlineAux_nil]
      simp
    · rename_i hno hdrop
      rw [hstop.2] at hdrop
      exact absurd hdrop (List.cons_ne_nil '`' [])
  · rename_i hno heq
    exact (hno ((List.cons.injEq .. |>.mp heq).1.symm)).elim

theorem pairSub_not_mem (p : Char) (tagO tagC : List Char) :
    ∀ cs : List Char, p ∉ cs → pairSub p tagO tagC cs = cs := by
  intro cs
  induction cs using pairSub.induct p tagO tagC with
  | case1 => intro _; rw [pairSub.eq_def]
  | case2 a => intro _; rw [pairSub.eq_def]
  | case3 a b rest hcond k hk ih =>
    intro h
    simp only [Bool.and_eq_true, decide_eq_true_eq] at hcond
    exact absurd (by rw [← hcond.1]; simp : p ∈ a :: b :: rest) h
  | case4 a b rest hcond hk ih =>
    intro h
    simp only [Bool.and_eq_true, decide_eq_true_eq] at hcond
    exact absurd (by rw [← hcond.1]; simp : p ∈ a :: b :: rest) h
  | case5 a b rest hcond ih =>
    intro h
    rw [pairSub.eq_def]
    simp only [if_neg hcond]
    rw [ih (fun hm => h (by simp [List.mem_cons] at hm ⊢; tauto))]

theorem italicSub_not_mem (p : Char) (tagO tagC : List Char) :
    ∀ (prev : Option Char) (cs : List Char), p ∉ cs →
      italicSub p tagO tagC prev cs = cs := by
  intro prev cs
  induction prev, cs using italicSub.induct p tagO tagC with
  | case1 prev => intro _; rw [italicSub.eq_def]
  | case2 prev c rest hcond head rest2 hdrop hrun ih =>
    intro h
    simp only [Bool.and_eq_true, decide_eq_true_eq] at hcond
    exact absurd (by rw [← hcond.1]; simp : p ∈ c :: rest) h
  | case3 prev c rest hcond head rest2 hdrop hrun hla ih =>
    intro h
    simp only [Bool.and_eq_true, decide_eq_true_eq] at hcond
    exact absurd (by rw [← hcond.1]; simp : p ∈ c :: rest) h
  | case4 prev c rest hcond head rest2 hdrop hrun hla ih =>
    intro h
    simp only [Bool.and_eq_true, decide_eq_true_eq] at hcond
    exact absurd (by rw [← hcond.1]; simp : p ∈ c :: rest) h
  | case5 prev c rest hcond hdrop ih =>
    intro h
    simp only [Bool.and_eq_true, decide_eq_true_eq] at hcond
    exact absurd (by rw [← hcond.1]; simp : p ∈ c :: rest) h
  | case6 prev c rest hcond ih =>
    intro h
    rw [italicSub.eq_def]
    simp only [if_neg hcond]
    rw [ih (fun hm => h (by simp [hm]))]

theorem linkSub_not_mem :
    ∀ cs : List Char, '[' ∉ cs → linkSub cs = cs := by
  intro cs
  induction cs using linkSub.induct with
  | case1 => intro _; rw [linkSub.eq_def]
  | case2 rest hfind ih =>
    intro h
    exact absurd (by simp : '[' ∈ '[' :: rest) h
  | case3 rest k hfind hk rest2 hdrop hfind2 ih =>
    intro h
    exact absurd (by simp : '[' ∈ '[' :: rest) h
  | case4 rest k hfind hk rest2 hdrop k2 hfind2 hk2 ih =>
    intro h
    exact absurd (by simp : '[' ∈ '[' :: rest) h
  | case5 rest k hfind hk rest2 hdrop hfind2 ih =>
    intro h
    exact absurd (by simp : '[' ∈ '[' :: rest) h
  | case6 rest k hfind hk hno ih =>
    intro h
    exact absurd (by simp : '[' ∈ '[' :: rest) h
  | case7 rest hfind ih =>
    intro h
    exact absurd (by simp : '[' ∈ '[' :: rest) h
  | case8 c rest hc ih =>
    intro h
    rw [linkSub.eq_def]
    simp only [if_neg (by simpa using fun he => h (by simp [he]) : ¬c = '[')]
    rw [ih (fun hm => h (by simp [hm]))]

theorem replaceAll_nil (pat rep : List Char) : replaceAll pat rep [] = [] := by
  rw [replaceAll.eq_def]

theorem replaceAll_self (pat rep : List Char) (h : pat ≠ []) :
    replaceAll pat rep pat = rep := by
  cases pat with
  | nil => exact absurd rfl h
  | cons c rest =>
    rw [replaceAll.eq_def]
    split
    · rename_i heq
      exact absurd heq (by simp)
    · rename_i c1 rest1 heq
      obtain ⟨h1, h2⟩ := List.cons.injEq .. |>.mp heq
      subst h1; subst h2
      split
      · rw [List.drop_length, replaceAll_nil]
        simp
      · rename_i hcond
        exact absurd ⟨h, by simp [List.isPrefixOf_iff_prefix]⟩ hcond

/-- The whole pipeline on a standalone fenced block: the inner code is the
escape of the `strip`ped content (not the verbatim content). -/
theorem markdown_fenced_standalone (lang c : List Char)
    (hlang : ∀ x ∈ lang, pyIsWord x = true) (hc : '`' ∉ c) :
    markdownToTelegramHtmlL
        ('`' :: '`' :: '`' :: (lang ++ '\n' :: (c ++ ['`', '`', '`'])))
      = renderFenced lang c := by
  have hesc : escape_html (placeholder "CODE" 0) = placeholder "CODE" 0 := by decide
  unfold markdownToTelegramHtmlL
  rw [if_neg (by simp)]
  rw [fencedAux_standalone lang c 0 hlang hc]
  dsimp only
  rw [inlineAux_no_backtick (placeholder "CODE" 0) (by decide)]
  dsimp only
  rw [hesc]
  rw [pairSub_not_mem '*' _ _ _ (by decide), pairSub_not_mem '_' _ _ _ (by decide),
    italicSub_not_mem '*' _ _ none _ (by decide),
    italicSub_not_mem '_' _ _ none _ (by decide),
    linkSub_not_mem _ (by decide)]
  simp only [restoreSaved]
  rw [replaceAll_self _ _ (by decide)]

/-- The whole pipeline on a standalone inline span: the inner code is the
escape of the verbatim content. -/
theorem markdown_inline_standalone (c : List Char) (hne : c ≠ []) (hc : '`' ∉ c) :
    markdownToTelegramHtmlL ('`' :: (c ++ ['`']))
      = "<code>".toList ++ escape_html c ++ "</code>".toList := by
  have hesc : escape_html (placeholder "INLINE" 0) = placeholder "INLINE" 0 := by decide
  unfold markdownToTelegramHtmlL
  rw [if_neg (by simp)]
  rw [fencedAux_inline_pass c hne hc]
  dsimp only
  rw [inlineAux_standalone c hne hc]
  dsimp only
  rw [hesc]
  rw [pairSub_not_mem '*' _ _ _ (by decide), pairSub_not_mem '_' _ _ _ (by decide),
    italicSub_not_mem '*' _ _ none _ (by decide),
    italicSub_not_mem '_' _ _ none _ (by decide),
    linkSub_not_mem _ (by decide)]
  simp only [restoreSaved]
  rw [replaceAll_self _ _ (by decide)]

theorem escape_html_append : ∀ a b : List Char,
    escape_html (a ++ b) = escape_html a ++ escape_html b := by
  intro a b
  induction a with
  | nil => rfl
  | cons c a' ih =>
    show escapeChar c ++ escape_html (a' ++ b)
      = (escapeChar c ++ escape_html a') ++ escape_html b
    rw [ih, List.append_assoc]

theorem escape_html_not_mem (x : Char) :
    ∀ cs : List Char, x ∉ cs → x ∉ "&amp;lt;gt;quot;#x27".toList →
      x ∉ escape_html cs := by
  intro cs
  induction cs with
  | nil =>
    intro _ _ hm
    simp [escape_html] at hm
  | cons c rest ih =>
    intro hcs hq hm
    have hne : x ≠ c := fun he => hcs (by simp [he])
    have hrest : x ∉ rest := fun hr => hcs (by simp [hr])
    rw [show escape_html (c :: rest) = escapeChar c ++ escape_html rest from rfl] at hm
    rcases List.mem_append.mp hm with h1 | h2
    · unfold escapeChar at h1
      split_ifs at h1
      · exact hq ((by decide : ∀ y ∈ "&amp;".toList, y ∈ "&amp;lt;gt;quot;#x27".toList) x h1)
      · exact hq ((by decide : ∀ y ∈ "&lt;".toList, y ∈ "&amp;lt;gt;quot;#x27".toList) x h1)
      · exact hq ((by decide : ∀ y ∈ "&gt;".toList, y ∈ "&amp;lt;gt;quot;#x27".toList) x h1)
      · exact hq ((by decide : ∀ y ∈ "&quot;".toList, y ∈ "&amp;lt;gt;quot;#x27".toList) x h1)
      · exact hq ((by decide : ∀ y ∈ "&#x27;".toList, y ∈ "&amp;lt;gt;quot;#x27".toList) x h1)
      · exact hne (by simpa using h1)
    · exact ih hrest hq h2

theorem notMem_esc_ph (x : Char) (pre post : List Char) (tag : String) (n : Nat)
    (hpre : x ∉ pre) (hpost : x ∉ post)
    (hq : x ∉ "&amp;lt;gt;quot;#x27".toList) (hph : x ∉ placeholder tag n) :
    x ∉ escape_html pre ++ (placeholder tag n ++ escape_html post) := by
  intro hm
  rcases List.mem_append.mp hm with h | h
  · exact escape_html_not_mem x pre hpre hq h
  · rcases List.mem_append.mp h with h | h
    · exact hph h
    · exact escape_html_not_mem x post hpost hq h

theorem fencedAux_append : ∀ (pre : List Char), '`' ∉ pre →
    ∀ (rest : List Char) (n : Nat),
      fencedAux (pre ++ rest) n
        = (pre ++ (fencedAux rest n).1, (fencedAux rest n).2) := by
  intro pre
  induction pre with
  | nil => intro _ rest n; simp
  | cons x pre' ih =>
    intro hpre rest n
    have hx : x ≠ '`' := fun he => hpre (by simp [he])
    have hpre' : '`' ∉ pre' := fun hm => hpre (by simp [hm])
    rw [List.cons_append, fencedAux.eq_def]
    split
    · rename_i heq
      exact absurd heq (by simp)
    · rename_i heq
      rw [List.cons.injEq] at heq
      exact absurd heq.1 hx
    · rename_i c1 rest1 hno heq
      obtain ⟨h1, h2⟩ := List.cons.injEq .. |>.mp heq
      subst h1; subst h2
      rw [ih hpre' rest]
      rfl

theorem fencedAux_block (lang c post : List Char) (n : Nat)
    (hlang : ∀ x ∈ lang, pyIsWord x = true) (hc : '`' ∉ c) (hpost : '`' ∉ post) :
    fencedAux ('`' :: '`' :: '`' :: (lang ++ '\n' :: (c ++ '`' :: '`' :: '`' :: post))) n
      = (placeholder "CODE" n ++ post, [renderFenced lang c]) := by
  have hnl : pyIsWord '\n' = false := by decide
  have htw := takeWhile_append_stop lang '\n' (c ++ '`' :: '`' :: '`' :: post) hlang hnl
  rw [fencedAux.eq_def]
  split
  · rename_i heq
    exact absurd heq (by simp)
  · rename_i heq
    simp only [List.cons.injEq, true_and] at heq
    subst heq
    split
    · rename_i body heq2
      rw [htw.2, List.cons.injEq] at heq2
      obtain ⟨-, hb⟩ := heq2
      subst hb
      rw [findTripleIdx_append post c hc]
      have hdrop : (c ++ '`' :: '`' :: '`' :: post).drop (c.length + 3) = post := by
        rw [show c ++ '`' :: '`' :: '`' :: post = (c ++ ['`', '`', '`']) ++ post by simp]
        rw [show c.length + 3 = (c ++ ['`', '`', '`']).length by simp]
        exact List.drop_left _ _
      simp only [htw.1, List.take_left' rfl, hdrop, fencedAux_no_backtick post hpost]
    · rename_i hno heq2
      exact (heq2 (c ++ '`' :: '`' :: '`' :: post) htw.2).elim
  · rename_i hno heq
    rw [List.cons.injEq] at heq
    exact (hno (lang ++ '\n' :: (c ++ '`' :: '`' :: '`' :: post))
      heq.1.symm heq.2.symm).elim

theorem fencedAux_one_backtick : ∀ (c : List Char), '`' ∉ c →
    ∀ (post : List Char), '`' ∉ post → ∀ n,
      fencedAux (c ++ '`' :: post) n = (c ++ '`' :: post, []) := by
  intro c
  induction c with
  | nil =>
    intro _ post hpost n
    rw [List.nil_append, fencedAux.eq_def]
    split
    · rename_i heq
      exact absurd heq (by simp)
    · rename_i rest heq
      rw [List.cons.injEq] at heq
      obtain ⟨-, h2⟩ := heq
      exact absurd (by rw [h2]; simp : '`' ∈ post) hpost
    · rename_i c1 rest1 hno heq
      obtain ⟨h1, h2⟩ := List.cons.injEq .. |>.mp heq
      subst h1; subst h2
      rw [fencedAux_no_backtick post hpost]
  | cons x c' ih =>
    intro hx post hpost n
    have hxne : x ≠ '`' := fun he => hx (by simp [he])
    have hc' : '`' ∉ c' := fun hm => hx (by simp [hm])
    rw [List.cons_append, fencedAux.eq_def]
    split
    · rename_i heq
      exact absurd heq (by simp)
    · rename_i heq
      rw [List.cons.injEq] at heq
      exact absurd heq.1 hxne
    · rename_i c1 rest1 hno heq
      obtain ⟨h1, h2⟩ := List.cons.injEq .. |>.mp heq
      subst h1; subst h2
      rw [ih hc' post hpost]

theorem fencedAux_span (c post : List Char) (hne : c ≠ []) (hc : '`' ∉ c)
    (hpost : '`' ∉ post) (n : Nat) :
    fencedAux ('`' :: (c ++ '`' :: post)) n = ('`' :: (c ++ '`' :: post), []) := by
  rw [fencedAux.eq_def]
  split
  · rename_i heq
    exact absurd heq (by simp)
  · rename_i heq
    rw [List.cons.injEq] at heq
    obtain ⟨-, heq2⟩ := heq
    cases c with
    | nil => exact absurd rfl hne
    | cons c0 c' =>
      rw [List.cons_append, List.cons.injEq] at heq2
      exact absurd heq2.1 (fun he => hc (by simp [he]))
  · rename_i c1 rest1 hno heq
    obtain ⟨h1, h2⟩ := List.cons.injEq .. |>.mp heq
    subst h1; subst h2
    rw [fencedAux_one_backtick c hc post hpost]

theorem inlineAux_append : ∀ (pre : List Char), '`' ∉ pre →
    ∀ (rest : List Char) (n : Nat),
      inlineAux (pre ++ rest) n
        = (pre ++ (inlineAux rest n).1, (inlineAux rest n).2) := by
  intro pre
  induction pre with
  | nil => intro _ rest n; simp
  | cons x pre' ih =>
    intro hpre rest n
    have hx : x ≠ '`' := fun he => hpre (by simp [he])
    have hpre' : '`' ∉ pre' := fun hm => hpre (by simp [hm])
    rw [List.cons_append, inlineAux.eq_def]
    split
    · rename_i heq
      exact absurd heq (by simp)
    · rename_i heq
      rw [List.cons.injEq] at heq
      exact absurd heq.1 hx
    · rename_i c1 rest1 hno heq
      obtain ⟨h1, h2⟩ := List.cons.injEq .. |>.mp heq
      subst h1; subst h2
      rw [ih hpre' rest]
      rfl

theorem inlineAux_span (c post : List Char) (hne : c ≠ []) (hc : '`' ∉ c)
    (hpost : '`' ∉ post) (n : Nat) :
    inlineAux ('`' :: (c ++ '`' :: post)) n
      = (placeholder "INLINE" n ++ post,
          ["<code>".toList ++ escape_html c ++ "</code>".toList]) := by
  have hstop := takeWhile_append_stop (p := fun x => decide (x ≠ '`')) c '`' post
    (fun x hx => by
      simp only [decide_eq_true_eq]
      intro he
      exact hc (he ▸ hx))
    (by simp)
  rw [inlineAux.eq_def]
  split
  · rename_i heq
    exact absurd heq (by simp)
  · rename_i rest heq
    rw [List.cons.injEq] at heq
    obtain ⟨-, hrest⟩ := heq
    subst hrest
    split
    · rename_i head rest2 hdrop
      rw [hstop.2, List.cons.injEq] at hdrop
      obtain ⟨-, hrest2⟩ := hdrop
      subst hrest2
      simp only [hstop.1]
      rw [if_neg (by simpa using hne)]
      rw [inlineAux_no_backtick post hpost]
    · rename_i hno hdrop
      rw [hstop.2] at hdrop
      exact absurd hdrop (List.cons_ne_nil '`' post)
  · rename_i hno heq
    exact (hno ((List.cons.injEq .. |>.mp heq).1.symm)).elim

theorem replaceAll_not_head (p0 : Char) (pat rep : List Char) :
    ∀ text : List Char, p0 ∉ text → replaceAll (p0 :: pat) rep text = text := by
  intro text
  induction text with
  | nil => intro _; exact replaceAll_nil _ _
  | cons c rest ih =>
    intro h
    have hc : c ≠ p0 := fun he => h (by simp [he])
    rw [replaceAll.eq_def]
    split
    · rename_i heq
      exact absurd heq (by simp)
    · rename_i c1 rest1 heq
      obtain ⟨h1, h2⟩ := List.cons.injEq .. |>.mp heq
      subst h1; subst h2
      split
      · rename_i hcond
        have hpp := List.isPrefixOf_iff_prefix.mp hcond.2
        rw [List.cons_prefix_cons] at hpp
        exact absurd hpp.1.symm hc
      · rw [ih (fun hm => h (by simp [hm]))]

theorem replaceAll_append_pass (p0 : Char) (pat rep : List Char) :
    ∀ (pre text : List Char), p0 ∉ pre →
      replaceAll (p0 :: pat) rep (pre ++ text)
        = pre ++ replaceAll (p0 :: pat) rep text := by
  intro pre
  induction pre with
  | nil => intro text _; simp
  | cons c pre' ih =>
    intro text h
    have hc : c ≠ p0 := fun he => h (by simp [he])
    rw [List.cons_append, replaceAll.eq_def]
    split
    · rename_i heq
      exact absurd heq (by simp)
    · rename_i c1 rest1 heq
      obtain ⟨h1, h2⟩ := List.cons.injEq .. |>.mp heq
      subst h1; subst h2
      split
      · rename_i hcond
        have hpp := List.isPrefixOf_iff_prefix.mp hcond.2
        rw [List.cons_prefix_cons] at hpp
        exact absurd hpp.1.symm hc
      · rw [ih text (fun hm => h (by simp [hm]))]
        rfl

theorem replaceAll_once (p0 : Char) (pat rep pre post : List Char)
    (hpre : p0 ∉ pre) (hpost : p0 ∉ post) :
    replaceAll (p0 :: pat) rep (pre ++ ((p0 :: pat) ++ post)) = pre ++ (rep ++ post) := by
  rw [replaceAll_append_pass p0 pat rep pre _ hpre]
  congr 1
  rw [List.cons_append, replaceAll.eq_def]
  split
  · rename_i heq
    exact absurd heq (by simp)
  · rename_i c1 rest1 heq
    obtain ⟨h1, h2⟩ := List.cons.injEq .. |>.mp heq
    subst h1; subst h2
    split
    · rename_i hcond
      have hdrop : (p0 :: (pat ++ post)).drop (p0 :: pat).length = post := by
        rw [show p0 :: (pat ++ post) = (p0 :: pat) ++ post by simp]
        exact List.drop_left _ _
      rw [hdrop, replaceAll_not_head p0 pat rep post hpost]
    · rename_i hcond
      refine absurd ⟨by simp, ?_⟩ hcond
      rw [List.isPrefixOf_iff_prefix, List.cons_prefix_cons]
      exact ⟨rfl, List.prefix_append pat post⟩

theorem replaceAll_placeholder (tag : String) (n : Nat) (rep pre post : List Char)
    (hpre : '\x00' ∉ pre) (hpost : '\x00' ∉ post) :
    replaceAll (placeholder tag n) rep (pre ++ (placeholder tag n ++ post))
      = pre ++ (rep ++ post) := by
  have h := replaceAll_once '\x00' (tag.toList ++ (Nat.repr n).toList ++ ['\x00'])
    rep pre post hpre hpost
  simpa [placeholder] using h

/-- The whole pipeline on a fenced block embedded in plain surrounding text:
the surroundings are escaped, the inner code is the escape of the `strip`ped
content. -/
theorem markdown_fenced_in_context (pre lang c post : List Char)
    (hpre : plainCtx pre) (hpost : plainCtx post)
    (hlang : ∀ x ∈ lang, pyIsWord x = true) (hc : '`' ∉ c) :
    markdownToTelegramHtmlL
        (pre ++ '`' :: '`' :: '`' :: (lang ++ '\n' :: (c ++ '`' :: '`' :: '`' :: post)))
      = escape_html pre ++ renderFenced lang c ++ escape_html post := by
  obtain ⟨hpreB, hpreN, hpreS, hpreU, hpreL⟩ := hpre
  obtain ⟨hpostB, hpostN, hpostS, hpostU, hpostL⟩ := hpost
  have hescph : escape_html (placeholder "CODE" 0) = placeholder "CODE" 0 := by decide
  unfold markdownToTelegramHtmlL
  rw [if_neg (by simp)]
  rw [fencedAux_append pre hpreB]
  rw [fencedAux_block lang c post 0 hlang hc hpostB]
  dsimp only
  have hnb : '`' ∉ pre ++ (placeholder "CODE" 0 ++ post) := by
    intro hm
    rcases List.mem_append.mp hm with h | h
    · exact hpreB h
    · rcases List.mem_append.mp h with h | h
      · exact absurd h (by decide)
      · exact hpostB h
  rw [inlineAux_no_backtick _ hnb 0]
  dsimp only
  rw [escape_html_append pre (placeholder "CODE" 0 ++ post),
    escape_html_append (placeholder "CODE" 0) post, hescph]
  have hstar := notMem_esc_ph '*' pre post "CODE" 0 hpreS hpostS (by decide) (by decide)
  have hund := notMem_esc_ph '_' pre post "CODE" 0 hpreU hpostU (by decide) (by decide)
  have hbrk := notMem_esc_ph '[' pre post "CODE" 0 hpreL hpostL (by decide) (by decide)
  rw [pairSub_not_mem '*' _ _ _ hstar, pairSub_not_mem '_' _ _ _ hund,
    italicSub_not_mem '*' _ _ none _ hstar, italicSub_not_mem '_' _ _ none _ hund,
    linkSub_not_mem _ hbrk]
  simp only [restoreSaved]
  rw [replaceAll_placeholder "CODE" 0 (renderFenced lang c) (escape_html pre)
    (escape_html post) (escape_html_not_mem '\x00' pre hpreN (by decide))
    (escape_html_not_mem '\x00' post hpostN (by decide))]
  simp [List.append_assoc]

/-- The whole pipeline on an inline code span embedded in plain surrounding
text: the surroundings are escaped, the inner code is the escape of the
verbatim content. -/
theorem markdown_inline_in_context (pre c post : List Char)
    (hpre : plainCtx pre) (hpost : plainCtx post)
    (hne : c ≠ []) (hc : '`' ∉ c) :
    markdownToTelegramHtmlL (pre ++ '`' :: (c ++ '`' :: post))
      = escape_html pre
          ++ ("<code>".toList ++ escape_html c ++ "</code>".toList)
          ++ escape_html post := by
  obtain ⟨hpreB, hpreN, hpreS, hpreU, hpreL⟩ := hpre
  obtain ⟨hpostB, hpostN, hpostS, hpostU, hpostL⟩ := hpost
  have hescph : escape_html (placeholder "INLINE" 0) = placeholder "INLINE" 0 := by decide
  unfold markdownToTelegramHtmlL
  rw [if_neg (by simp)]
  rw [fencedAux_append pre hpreB]
  rw [fencedAux_span c post hne hc hpostB]
  dsimp only
  rw [inlineAux_append pre hpreB]
  rw [inlineAux_span c post hne hc hpostB]
  dsimp only
  rw [escape_html_append pre (placeholder "INLINE" 0 ++ post),
    escape_html_append (placeholder "INLINE" 0) post, hescph]
  have hstar := notMem_esc_ph '*' pre post "INLINE" 0 hpreS hpostS (by decide) (by decide)
  have hund := notMem_esc_ph '_' pre post "INLINE" 0 hpreU hpostU (by decide) (by decide)
  have hbrk := notMem_esc_ph '[' pre post "INLINE" 0 hpreL hpostL (by decide) (by decide)
  rw [pairSub_not_mem '*' _ _ _ hstar, pairSub_not_mem '_' _ _ _ hund,
    italicSub_not_mem '*' _ _ none _ hstar, italicSub_not_mem '_' _ _ none _ hund,
    linkSub_not_mem _ hbrk]
  simp only [restoreSaved]
  rw [replaceAll_placeholder "INLINE" 0
    ("<code>".toList ++ escape_html c ++ "</code>".toList) (escape_html pre)
    (escape_html post) (escape_html_not_mem '\x00' pre hpreN (by decide))
    (escape_html_not_mem '\x00' post hpostN (by decide))]
  simp [List.append_assoc]

/-! ## Claim theorems -/

/-- C2: for every tool invocation, the auto-allow decision is computed in
exactly the specified order: bypassPermissions allows; acceptEdits allows the
edit tools; any tool outside the approval-required set is allowed; otherwise
the call is allowed iff some rule of the project allow-list matches it (the
exact generated rule, or for Bash the `Bash(basename:*)` pattern or the
wildcard `Bash(*)`). -/
theorem should_auto_allow_matches_spec_order (toolName : String)
    (input : InputData) (mode : String) (rules : List String) :
    should_auto_allow toolName input mode rules
      = should_auto_allow_spec toolName input mode rules := by
  unfold should_auto_allow should_auto_allow_spec approvalRequiredTools editTools
  split_ifs <;> first | rfl | exact check_eq_any toolName input rules

/-- C9: every rule `generate_smart_bash_rule` returns is either a validated
smart pattern — it matches the command as an ordered token subsequence ending
in `*` and is not the bare `*` — or the `Bash(basename:*)` fallback, and when
every model attempt fails validation the fallback is returned. -/
theorem smart_bash_rule_validated (command : String)
    (attempts : List (Option String)) :
    (generate_smart_bash_rule command attempts
        = "Bash(" ++ smartFallbackBase command ++ ":*)"
      ∨ ∃ p, generate_smart_bash_rule command attempts = "Bash(" ++ p ++ ")"
          ∧ _pattern_matches_command p command = true
          ∧ _is_pattern_too_broad p = false
          ∧ p ≠ "*")
    ∧ ((∀ raw, some raw ∈ attempts →
          ¬(_pattern_matches_command (_generate_pattern_once raw) command = true
            ∧ _is_pattern_too_broad (_generate_pattern_once raw) = false)) →
        generate_smart_bash_rule command attempts
          = "Bash(" ++ smartFallbackBase command ++ ":*)") := by
  unfold generate_smart_bash_rule
  induction attempts with
  | nil => exact ⟨Or.inl rfl, fun _ => rfl⟩
  | cons a rest ih =>
    cases a with
    | none =>
      refine ⟨?_, ?_⟩
      · simpa [smartRuleLoop] using ih.1
      · intro h
        simpa [smartRuleLoop] using ih.2 (fun raw hraw => h raw (by simp [hraw]))
    | some raw =>
      by_cases hm : _pattern_matches_command (_generate_pattern_once raw) command
      · by_cases hb : _is_pattern_too_broad (_generate_pattern_once raw)
        · refine ⟨?_, ?_⟩
          · simpa [smartRuleLoop, hm, hb] using ih.1
          · intro h
            simpa [smartRuleLoop, hm, hb] using
              ih.2 (fun raw' hraw => h raw' (by simp [hraw]))
        · have hb' : _is_pattern_too_broad (_generate_pattern_once raw) = false :=
            Bool.not_eq_true _ |>.mp hb
          have hne : _generate_pattern_once raw ≠ "*" := by
            intro he
            rw [he] at hb'
            exact absurd too_broad_star (by simp [hb'])
          refine ⟨Or.inr ⟨_, by simp [smartRuleLoop, hm, hb'], hm, hb', hne⟩, ?_⟩
          intro h
          exact absurd ⟨hm, hb'⟩ (h raw (by simp))
      · refine ⟨?_, ?_⟩
        · simpa [smartRuleLoop, hm] using ih.1
        · intro h
          simpa [smartRuleLoop, hm] using
            ih.2 (fun raw' hraw => h raw' (by simp [hraw]))

/-- Witness for C9 at a concrete input: with every attempt failing (a raised
model exception), the rule is the `Bash(git:*)` fallback. -/
theorem smart_bash_rule_validated_witness :
    generate_smart_bash_rule "git push origin main --tags" [none, none, none]
      = "Bash(git:*)" := by
  have h := (smart_bash_rule_validated "git push origin main --tags"
    [none, none, none]).2 (fun raw hraw => by simp at hraw)
  rw [h]
  decide

/-- C1 counterexample: for Bash, a successful smart-generated ALLOW_ALWAYS
rule (model output `git push --tags *`) is persisted, yet re-invoking the
permission check with the same tool and input does not auto-allow: the
checker only recognises `Bash(basename:*)` and `Bash(*)` forms, so a pending
permission is created again. -/
theorem allow_always_smart_bash_counterexample :
    allowAlwaysRule "Bash" [("command", "git push origin main --tags")]
        [some "git push --tags *"]
        = "Bash(git push --tags *)"
      ∧ should_auto_allow "Bash" [("command", "git push origin main --tags")]
          "default"
          (add_permission_rule []
            (allowAlwaysRule "Bash" [("command", "git push origin main --tags")]
              [some "git push --tags *"])) = false
      ∧ (permissionHandler
          (should_auto_allow "Bash" [("command", "git push origin main --tags")]
            "default"
            (add_permission_rule []
              (allowAlwaysRule "Bash" [("command", "git push origin main --tags")]
                [some "git push --tags *"])))
          .ok (some .allow)).createdPending = true := by decide

/-- C1 amended: persisting the ALLOW_ALWAYS rule guarantees an auto-allow on
re-invocation for every non-Bash tool; for Bash it guarantees it exactly when
the persisted rule is the `Bash(basename:*)` form (the fallback shape) — a
successful smart-generated Bash rule is persisted but never matched by
`check_permission_rule`, so the same Bash invocation prompts again. -/
theorem allow_always_reallow_amended :
    (∀ (toolName : String) (input : InputData) (mode : String)
        (rules : List String) (attempts : List (Option String)),
        toolName ≠ "Bash" →
        should_auto_allow toolName input mode
          (add_permission_rule rules (allowAlwaysRule toolName input attempts))
          = true)
    ∧ (∀ (input : InputData) (mode : String) (rules : List String),
        should_auto_allow "Bash" input mode
          (add_permission_rule rules (generate_permission_rule "Bash" input))
          = true) := by
  constructor
  · intro toolName input mode rules attempts hB
    unfold allowAlwaysRule
    rw [if_neg hB]
    unfold should_auto_allow
    split_ifs <;> try rfl
    unfold check_permission_rule
    simp
    exact Or.inl (mem_add_permission_rule rules _)
  · intro input mode rules
    unfold should_auto_allow
    split_ifs <;> try rfl
    unfold check_permission_rule
    simp
    exact Or.inl (mem_add_permission_rule rules _)

/-- Witness for C1 (amended) at concrete inputs: an Edit rule and a Bash
basename rule each re-allow their own invocation. -/
theorem allow_always_reallow_witness :
    should_auto_allow "Edit" [("file_path", "/a/b")] "default"
        (add_permission_rule []
          (allowAlwaysRule "Edit" [("file_path", "/a/b")] [])) = true
      ∧ should_auto_allow "Bash" [("command", "git push")] "default"
          (add_permission_rule []
            (generate_permission_rule "Bash" [("command", "git push")])) = true :=
  ⟨allow_always_reallow_amended.1 "Edit" [("file_path", "/a/b")] "default" [] []
      (by decide),
    allow_always_reallow_amended.2 [("command", "git push")] "default" []⟩

/-- C4: when the 10-second-capped attempt to show the permission UI times out
or raises, the handler resolves allow (fail-open) and the pending permission
slot is cleared; once the send succeeds, the outcome is a function of the
user's eventual decision alone — the wait has no timeout branch — and the
pending slot ends cleared on every path. -/
theorem permission_send_failopen_no_wait_timeout :
    (∀ d, permissionHandler false .timeout d
        = { result := .allow, pending_permission := none, createdPending := true })
    ∧ (∀ d, permissionHandler false .err d
        = { result := .allow, pending_permission := none, createdPending := true })
    ∧ (∀ r, permissionHandler false .ok (some r)
        = { result := r, pending_permission := none, createdPending := true })
    ∧ (permissionHandler false .ok none
        = { result := .deny "No response received", pending_permission := none
            createdPending := true })
    ∧ (∀ a s d, (permissionHandler a s d).pending_permission = none) := by
  refine ⟨fun d => rfl, fun d => rfl, fun r => rfl, rfl, ?_⟩
  intro a s d
  cases a <;> cases s <;> cases d <;> rfl

/-- C5: after a teleport binds terminal `t2` to a session previously bound to
`t1 ≠ t2`, the next delivery cycle of an SSE consumer tagged `t1` emits
exactly one `superseded` update and closes: no queued event is delivered
afterwards. -/
theorem teleport_supersedes_stream (s : SessionM) (q : List SseEvent)
    (t1 t2 : String) (hne : t2 ≠ t1) (hnz : t2 ≠ "") :
    streamRun t1 (teleportBind s t2).terminal_id q
      = [.update "superseded" "Another terminal took over"] := by
  cases q <;> simp [streamRun, teleportBind, supersededCheck, hne, hnz]

/-- Witness for C5 at a concrete session, queue and terminal ids. -/
theorem teleport_supersedes_stream_witness :
    streamRun "t1"
        (teleportBind
          { id := "s", cwd := "/p", claude_session_id := none,
            permission_mode := "default", terminal_id := some "t1",
            client := none, is_processing := false, pending_question := none,
            pending_permission := none } "t2").terminal_id
        [.plain "text" "hi", .plain "tool_call" "ls"]
      = [.update "superseded" "Another terminal took over"] :=
  teleport_supersedes_stream _ _ "t1" "t2" (by decide) (by decide)

/-- C6: after `save_state` and `load_state` into a fresh registry, every
persisted chat identity maps to a session carrying the recorded
`claude_session_id`, `cwd`, `terminal_id` and `permission_mode`, with no
pending permission, no pending question and no live client.  The registry
well-formedness hypotheses state the dict invariants of the source
(`_sessions` is keyed by session id; `_frontend_mappings` has unique keys). -/
theorem save_load_restores (cwd0 : String) (m : SessionManagerM)
    (hwf : ∀ p ∈ m.sessions, p.2.id = p.1)
    (hnd : (m.frontend_mappings.map Prod.fst).Nodup)
    (fid sid0 : String) (s0 : SessionM) (cs : String)
    (hmap : List.lookup fid m.frontend_mappings = some sid0)
    (hsess : List.lookup sid0 m.sessions = some s0)
    (hcs : s0.claude_session_id = some cs) (hz : cs ≠ "") :
    ∃ s, getByFrontendUser (load_state cwd0 (save_state m) emptyManager) fid
        = some s
      ∧ s.claude_session_id = some cs
      ∧ s.cwd = s0.cwd
      ∧ s.terminal_id = s0.terminal_id
      ∧ s.permission_mode = s0.permission_mode
      ∧ s.pending_permission = none
      ∧ s.pending_question = none
      ∧ s.client = none := by
  have hsid0 : s0.id = sid0 := hwf (sid0, s0) (lookup_mem hsess)
  set e : SavedEntry :=
    { session_id := some s0.id, claude_session_id := some cs,
      terminal_id := s0.terminal_id, cwd := some s0.cwd,
      is_processing := some s0.is_processing,
      permission_mode := some s0.permission_mode } with hedef
  have hentry : save_state_entry m sid0 = some e := by
    simp only [save_state_entry, hsess, hcs, if_neg hz, hedef]
  have hmem : (fid, e) ∈ save_state_entries m := by
    unfold save_state_entries
    rw [List.mem_filterMap]
    exact ⟨(fid, sid0), lookup_mem hmap, by rw [hentry]; rfl⟩
  have hne : save_state_entries m ≠ [] := List.ne_nil_of_mem hmem
  have hload : load_state cwd0 (save_state m) emptyManager
      = load_state_entries_loop cwd0 emptyManager (save_state_entries m) := by
    unfold save_state
    rw [if_neg (by simpa using hne)]
    rfl
  have hndkeys : ((save_state_entries m).map Prod.fst).Nodup :=
    hnd.sublist (save_state_entries_keys_sublist m)
  have hall : ∀ q ∈ save_state_entries m, q.2.session_id ≠ none := by
    rintro ⟨f1, e1⟩ hq
    obtain ⟨sidq, s1, _, _, _, _, _, he1⟩ := save_state_entries_mem hq
    simp [he1]
  have hcoh : ∀ q ∈ save_state_entries m, ∀ sid1, q.2.session_id = some sid1 →
      sid1 = sid0 → mkLoadedSession cwd0 sid1 q.2 = mkLoadedSession cwd0 sid0 e := by
    rintro ⟨f1, e1⟩ hq sid1 hq1 hq2
    subst hq2
    obtain ⟨sidq, s1, hpq, hlk1, cs1, hcs1, hz1, he1⟩ := save_state_entries_mem hq
    have hid1 : s1.id = sid1 := by
      have h2 : e1.session_id = some s1.id := by rw [he1]
      rw [hq1] at h2
      exact (Option.some.inj h2).symm
    have hkey : s1.id = sidq := hwf (sidq, s1) (lookup_mem hlk1)
    have hq0 : sidq = sid1 := by rw [← hkey, hid1]
    rw [hq0] at hlk1
    have hs1 : s1 = s0 := by
      have h3 : some s1 = some s0 := by rw [← hlk1, hsess]
      exact Option.some.inj h3
    subst hs1
    rw [he1, hedef]
    rw [hcs1] at hcs
    rw [hcs1, Option.some.inj hcs]
  have hfind := loadLoop_finds cwd0 (save_state_entries m) emptyManager fid sid0 e
    hmem (by rw [hedef]; simpa using congrArg some hsid0) hndkeys hall hcoh
  refine ⟨mkLoadedSession cwd0 sid0 e, ?_, rfl, rfl, rfl, rfl, rfl, rfl, rfl⟩
  simp only [getByFrontendUser, hload, hfind.1, hfind.2]

/-- Witness for C6 at a one-entry registry. -/
theorem save_load_restores_witness :
    ∃ s, getByFrontendUser
        (load_state "/cwd0"
          (save_state
            { sessions :=
                [("sid1",
                  { id := "sid1", claude_session_id := some "cs1", cwd := "/proj",
                    permission_mode := "acceptEdits", terminal_id := some "t1",
                    client := some (), is_processing := true,
                    pending_question := none, pending_permission := none })]
              frontend_mappings := [("telegram:42", "sid1")] })
          emptyManager) "telegram:42" = some s
      ∧ s.claude_session_id = some "cs1"
      ∧ s.cwd = "/proj"
      ∧ s.terminal_id = some "t1"
      ∧ s.permission_mode = "acceptEdits"
      ∧ s.pending_permission = none
      ∧ s.pending_question = none
      ∧ s.client = none :=
  save_load_restores "/cwd0"
    { sessions :=
        [("sid1",
          { id := "sid1", claude_session_id := some "cs1", cwd := "/proj",
            permission_mode := "acceptEdits", terminal_id := some "t1",
            client := some (), is_processing := true,
            pending_question := none, pending_permission := none })]
      frontend_mappings := [("telegram:42", "sid1")] }
    (by decide) (by decide) "telegram:42" "sid1"
    { id := "sid1", claude_session_id := some "cs1", cwd := "/proj",
      permission_mode := "acceptEdits", terminal_id := some "t1",
      client := some (), is_processing := true,
      pending_question := none, pending_permission := none }
    "cs1" (by decide) (by decide) (by decide) (by decide)

/-- C7: the claim that the snapshot file is deleted after `load_state`
restores the sessions is right about the intent (`clear_state_file` exists
for it, and the legacy server path calls its analogue after restoring), but
the refactored `run_server` never calls it: startup leaves the snapshot file
exactly as it found it. -/
theorem snapshot_file_survives_startup (cwd0 : String) (m : SessionManagerM)
    (contents : Except Unit (List (String × SavedEntry))) :
    (run_server_startup cwd0 m (some contents)).2 = some contents := rfl

/-- C8 counterexample: a snapshot whose second entry lacks `session_id`
fails decoding partway through, yet the first entry stays registered — the
registry does not fall back to empty. -/
theorem load_state_partial_registration_counterexample :
    ((load_state "/cwd"
        (some (.ok
          [("a", { session_id := some "s1", claude_session_id := some "c1",
                   terminal_id := some "t1", cwd := some "/p",
                   is_processing := some false,
                   permission_mode := some "default" }),
           ("b", {})]))
        emptyManager).sessions ≠ [])
      ∧ getByFrontendUser (load_state "/cwd"
          (some (.ok
            [("a", { session_id := some "s1", claude_session_id := some "c1",
                     terminal_id := some "t1", cwd := some "/p",
                     is_processing := some false,
                     permission_mode := some "default" }),
             ("b", {})]))
          emptyManager) "b" = none := by decide

/-- C8 amended: an absent snapshot leaves the registry unchanged; contents
that fail JSON parsing register nothing; but a snapshot whose entries fail
partway through (a missing `session_id` raising `KeyError`) silently keeps
every entry registered before the failing one. -/
theorem load_state_failure_modes (cwd0 : String) (m : SessionManagerM) :
    (load_state cwd0 none m = m)
    ∧ (load_state cwd0 (some (.error ())) m = m)
    ∧ (∀ (pre : List (String × SavedEntry)) (fid : String) (bad : SavedEntry)
        (rest : List (String × SavedEntry)), bad.session_id = none →
        load_state cwd0 (some (.ok (pre ++ (fid, bad) :: rest))) m
          = load_state cwd0 (some (.ok pre)) m) := by
  refine ⟨rfl, rfl, ?_⟩
  intro pre fid bad rest hbad
  unfold load_state
  induction pre generalizing m with
  | nil => simp [load_state_entries_loop, hbad]
  | cons p pre' ih =>
    obtain ⟨f, e⟩ := p
    rw [List.cons_append]
    unfold load_state_entries_loop
    cases he : e.session_id with
    | none => rfl
    | some sid => exact ih _

/-- Witness for C8 (amended) at a concrete bad entry. -/
theorem load_state_failure_modes_witness :
    load_state "/c" (some (.ok ([] ++ ("b", ({} : SavedEntry)) :: []))) emptyManager
      = load_state "/c" (some (.ok [])) emptyManager :=
  (load_state_failure_modes "/c" emptyManager).2.2 [] "b" {} [] rfl

/-- C10 counterexample: for `t = "\n"`, `split_text` returns no chunks, so
joining the chunks with a newline yields the empty text, not `t`: the
leading empty line is lost. -/
theorem split_text_drops_empty_line_counterexample :
    joinNl (split_text "\n".toList 4096) ≠ "\n".toList
      ∧ split_text "\n".toList 4096 = [] := by decide

/-- C10 amended: joining the chunks of `split_text` with a single newline
reproduces the text exactly whenever the text has no empty lines; in general
an empty line arriving while the current chunk is empty (a leading newline,
or an empty line right after a chunk flush) is dropped. -/
theorem split_text_join_amended (text : List Char) (maxLen : Nat)
    (h : ∀ l ∈ splitNl text, l ≠ []) :
    joinNl (split_text text maxLen) = text := by
  unfold split_text
  cases hL : splitNl text with
  | nil => exact absurd hL (splitNl_ne_nil text)
  | cons l0 rest =>
    have hl0 : l0 ≠ [] := h l0 (by rw [hL]; simp)
    have hrest : ∀ l ∈ rest, l ≠ [] := fun l hm => h l (by rw [hL]; simp [hm])
    unfold splitTextLoop
    by_cases hover : ([] : List Char).length + l0.length + 1 > maxLen
    · rw [if_pos hover]
      simp only [List.isEmpty_nil, if_true]
      rw [splitTextLoop_join maxLen rest [] l0 hl0 hrest, List.nil_append,
        ← hL, joinNl_splitNl]
    · rw [if_neg hover]
      simp only [List.isEmpty_nil, if_true]
      rw [splitTextLoop_join maxLen rest [] l0 hl0 hrest, List.nil_append,
        ← hL, joinNl_splitNl]

/-- Witness for C10 (amended) at a concrete two-line text. -/
theorem split_text_join_amended_witness :
    joinNl (split_text "a\nb".toList 4096) = "a\nb".toList :=
  split_text_join_amended "a\nb".toList 4096 (by decide)

/-- C3 counterexample: the fenced block ```` ```\n x\n``` ```` has content
`" x\n"`, but the emitted inner code is `"x"` — the content is `strip`ped, so
the output does not contain the escaped original content byte-for-byte. -/
theorem markdown_fenced_strip_counterexample :
    markdown_to_telegram_html "```\n x\n```" = "<pre><code>x</code></pre>"
      ∧ containsSub (escape_html " x\n".toList)
          (markdownToTelegramHtmlL "```\n x\n```".toList) = false := by
  have h := markdown_fenced_standalone [] " x\n".toList (by decide) (by decide)
  have hin : "```\n x\n```".toList
      = '`' :: '`' :: '`'
          :: (([] : List Char) ++ '\n' :: (" x\n".toList ++ ['`', '`', '`'])) := by
    decide
  constructor
  · unfold markdown_to_telegram_html
    rw [hin, h]
    decide
  · rw [hin, h]
    decide

/-- C3 amended: the translation preserves code only in this scope — for a
text `pre ++ ```lang\nc``` ++ post` or `pre ++ `c` ++ post` whose
surroundings `pre` and `post` are plain (no backtick, no NUL, none of the
bold, italic or link trigger characters `*`, `_`, `[`) and whose content `c`
is backtick-free, the output is exactly the escaped surroundings around the
rendered code.  An inline span's inner code is `escape_html c`, byte-for-byte
preservation modulo HTML escaping; a fenced block is rendered as
`renderFenced lang c`, whose inner code is `escape_html (pyStrip c)` — the
content survives only up to stripping leading and trailing whitespace. -/
theorem markdown_code_preservation_amended :
    (∀ pre lang c post : List Char, plainCtx pre → plainCtx post →
      (∀ x ∈ lang, pyIsWord x = true) → '`' ∉ c →
      markdownToTelegramHtmlL
          (pre ++ '`' :: '`' :: '`'
            :: (lang ++ '\n' :: (c ++ '`' :: '`' :: '`' :: post)))
        = escape_html pre ++ renderFenced lang c ++ escape_html post)
    ∧ (∀ pre c post : List Char, plainCtx pre → plainCtx post →
      c ≠ [] → '`' ∉ c →
      markdownToTelegramHtmlL (pre ++ '`' :: (c ++ '`' :: post))
        = escape_html pre
            ++ ("<code>".toList ++ escape_html c ++ "</code>".toList)
            ++ escape_html post) :=
  ⟨markdown_fenced_in_context, markdown_inline_in_context⟩

/-- Witness for C3 (amended) at a concrete fenced block and inline span, each
embedded in plain surrounding text. -/
theorem markdown_code_preservation_witness :
    markdownToTelegramHtmlL
        ("Try: ".toList ++ '`' :: '`' :: '`'
          :: ("py".toList ++ '\n' :: (" a<b \n".toList ++ '`' :: '`' :: '`' :: " ok".toList)))
      = escape_html "Try: ".toList ++ renderFenced "py".toList " a<b \n".toList
          ++ escape_html " ok".toList
    ∧ markdownToTelegramHtmlL ("x: ".toList ++ '`' :: ("a&b".toList ++ '`' :: "!".toList))
      = escape_html "x: ".toList
          ++ ("<code>".toList ++ escape_html "a&b".toList ++ "</code>".toList)
          ++ escape_html "!".toList :=
  ⟨markdown_code_preservation_amended.1 "Try: ".toList "py".toList " a<b \n".toList
      " ok".toList (by decide) (by decide) (by decide) (by decide),
    markdown_code_preservation_amended.2 "x: ".toList "a&b".toList "!".toList
      (by decide) (by decide) (by decide) (by decide)⟩

end RClaude
